import Mathlib

/-!
Verification of the VertexLang implementation against its natural-language
specification.  Each Rust function relevant to the checked claims is embedded
shallowly as an executable Lean definition, translated from the source files
under `src/`:

* `src/bytecode/{vm.rs, ops.rs, reader.rs, util.rs}` — the stack virtual
  machine and the bytecode file reader;
* `src/compiler/{ir.rs, ir_datatype.rs}` and `src/parser/nodes.rs` — the type
  name resolver, the AST and the IR builder;
* `src/runtime/bytecode.rs` with `src/data.rs` — the graph bytecode assembler
  and its runtime value type;
* `src/runtime/multithreading/jobs.rs` — the job scheduler.

Machine integers are modelled as `Int` with explicit wrap-around where the
Rust arithmetic can wrap; a Rust `f64` is represented by its 64-bit pattern,
a Rust `String` by its UTF-8 byte sequence.  A Rust panic is modelled as a
distinguished outcome (`crash` / `panicked`), kept separate from error
values returned through `Result::Err`.
-/

namespace VertexLang

namespace StackVM

/-- Wrap-around normalization of a mathematical integer into the value range
of a 64-bit signed machine integer, as Rust release-profile arithmetic
(`+`, `-`, `*`, `pow`) behaves on `i64`. -/
def wrapI64 (x : Int) : Int := (x + 2 ^ 63) % 2 ^ 64 - 2 ^ 63

/-- Constants of the stack bytecode (`src/bytecode/ops.rs`, `enum Constant`).
A Rust `OrderedFloat<f64>` is represented by its 64-bit pattern and a Rust
`String` by its UTF-8 bytes. -/
inductive Constant where
  | int (v : Int)
  | float (bits : Nat)
  | string (bytes : List Nat)
  | bool (b : Bool)
deriving DecidableEq

/-- Opcodes of the stack machine (`src/bytecode/ops.rs`, `enum Op`). -/
inductive Op where
  | noOp
  | constant (idx : Nat)
  | ret
  | intAdd
  | intSub
  | intMul
  | intDiv
  | intMod
  | intPow
  | jump (pos : Nat)
  | copy (offset : Nat)
deriving DecidableEq

/-- Stack values of the VM (`src/bytecode/vm.rs`, `enum Node`). -/
inductive Node where
  | int (v : Int)
  | float (bits : Nat)
  | string (bytes : List Nat)
  | bool (b : Bool)
  | funcPtr (p : Nat)
deriving DecidableEq

/-- A loaded bytecode program (`src/bytecode/reader.rs`, `struct Bytecode`). -/
structure Bytecode where
  instructions : List Op
  constants : List Constant
deriving DecidableEq

/-- Result of a VM execution.  `ok` is `Ok(node)`, `err` is an
`Err(Box<dyn VtRuntimeError>)` value (the message string is dropped), and
`crash` is a Rust panic: an out-of-bounds `Vec` index in the constant pool, a
division or remainder by zero, or the overflowing division `i64::MIN / -1`. -/
inductive Outcome where
  | ok (n : Node)
  | err
  | crash
deriving DecidableEq

/-- Conversion of a constant-pool entry into a stack value, as the
`Op::Constant` arm of `VM::exec` performs it. -/
def constToNode : Constant → Node
  | .int v => .int v
  | .float b => .float b
  | .string s => .string s
  | .bool b => .bool b

/-- The inner loop of the `Op::Return` arm of `VM::exec`: values are popped
until a `FuncPtr` is found (its position and the remaining stack are
returned) or the stack empties (`none`, meaning the VM returns). -/
def unwind : List Node → Option (Nat × List Node)
  | [] => none
  | .funcPtr p :: rest => some (p, rest)
  | _ :: rest => unwind rest

/-- Fuelled embedding of `VM::exec` (`src/bytecode/vm.rs`).  The stack is a
list whose head is the top.  `none` means the fuel ran out (the Rust loop
would still be running).  Integer arithmetic follows Rust release-profile
semantics: `+`, `-`, `*` and `pow` wrap, `/` and `%` panic on a zero divisor
and on `i64::MIN / -1`. -/
def execF (bc : Bytecode) : Nat → Nat → List Node → Option Outcome
  | 0, _, _ => none
  | fuel + 1, ip, stack =>
    match bc.instructions.get? ip with
    | none => some .err
    | some op =>
      match op with
      | .noOp => execF bc fuel (ip + 1) stack
      | .constant idx =>
        match bc.constants.get? idx with
        | none => some .crash
        | some c => execF bc fuel (ip + 1) (constToNode c :: stack)
      | .ret =>
        match stack with
        | [] => some .err
        | rv :: rest =>
          match unwind rest with
          | none => some (.ok rv)
          | some (p, rest2) => execF bc fuel p (rv :: rest2)
      | .intAdd =>
        match stack with
        | .int a :: .int b :: rest => execF bc fuel (ip + 1) (.int (wrapI64 (a + b)) :: rest)
        | _ => some .err
      | .intSub =>
        match stack with
        | .int a :: .int b :: rest => execF bc fuel (ip + 1) (.int (wrapI64 (a - b)) :: rest)
        | _ => some .err
      | .intMul =>
        match stack with
        | .int a :: .int b :: rest => execF bc fuel (ip + 1) (.int (wrapI64 (a * b)) :: rest)
        | _ => some .err
      | .intDiv =>
        match stack with
        | .int a :: .int b :: rest =>
          if b = 0 ∨ (a = -2 ^ 63 ∧ b = -1) then some .crash
          else execF bc fuel (ip + 1) (.int (a.tdiv b) :: rest)
        | _ => some .err
      | .intMod =>
        match stack with
        | .int a :: .int b :: rest =>
          if b = 0 ∨ (a = -2 ^ 63 ∧ b = -1) then some .crash
          else execF bc fuel (ip + 1) (.int (a.tmod b) :: rest)
        | _ => some .err
      | .intPow =>
        match stack with
        | .int a :: .int b :: rest =>
          execF bc fuel (ip + 1) (.int (wrapI64 (a ^ (b % 2 ^ 32).toNat)) :: rest)
        | _ => some .err
      | .jump pos =>
        if bc.instructions.length ≤ pos then some .err
        else execF bc fuel pos (.funcPtr (ip + 1) :: stack)
      | .copy offset =>
        match stack.get? offset with
        | none => some .err
        | some v => execF bc fuel (ip + 1) (v :: stack)

end StackVM

namespace ByteReader

open StackVM (Constant Op Bytecode)

/-- Result of parsing bytes.  `ok` is `Ok(..)`, `err` is an `Err(..)` value
(`InvalidBytecodeError`, `UnknownOpError` or `UnknownConstError`; messages
dropped), and `crash` is a Rust panic from indexing past the end of the byte
slice. -/
inductive RRes (α : Type) where
  | ok (val : α)
  | err
  | crash
deriving DecidableEq

/-- The magic number of a bytecode file (`src/bytecode/reader.rs`). -/
def MAGIC : Nat := 0x562514AF

/-- Big-endian interpretation of a byte list. -/
def beToNat (l : List Nat) : Nat := l.foldl (fun a b => a * 256 + b) 0

/-- Reinterpretation of a 64-bit pattern as a signed two's-complement value. -/
def toSigned64 (n : Nat) : Int := if n < 2 ^ 63 then (n : Int) else (n : Int) - 2 ^ 64

/-- Embedding of `read_u32` (`src/bytecode/util.rs`). -/
def readU32 (bytes : List Nat) (index : Nat) : RRes Nat :=
  if bytes.length ≤ index + 3 then .err
  else .ok (beToNat ((bytes.drop index).take 4))

/-- Embedding of `read_i64` (`src/bytecode/util.rs`). -/
def readI64 (bytes : List Nat) (index : Nat) : RRes Int :=
  if bytes.length ≤ index + 7 then .err
  else .ok (toSigned64 (beToNat ((bytes.drop index).take 8)))

/-- Embedding of `read_f64` (`src/bytecode/util.rs`); the value is kept as
its 64-bit pattern. -/
def readF64 (bytes : List Nat) (index : Nat) : RRes Nat :=
  if bytes.length ≤ index + 7 then .err
  else .ok (beToNat ((bytes.drop index).take 8))

/-- Check that a byte is a UTF-8 continuation byte. -/
def utf8Cont (b : Nat) : Bool := 0x80 ≤ b && b ≤ 0xBF

/-- Validity of a byte sequence as UTF-8, as `String::from_utf8` checks it
(including the rejection of overlong forms, surrogates and values above
U+10FFFF). -/
def utf8Valid : List Nat → Bool
  | [] => true
  | b :: rest =>
    if b ≤ 0x7F then utf8Valid rest
    else if 0xC2 ≤ b && b ≤ 0xDF then
      match rest with
      | c1 :: r => utf8Cont c1 && utf8Valid r
      | _ => false
    else if b = 0xE0 then
      match rest with
      | c1 :: c2 :: r => (0xA0 ≤ c1 && c1 ≤ 0xBF) && utf8Cont c2 && utf8Valid r
      | _ => false
    else if b = 0xED then
      match rest with
      | c1 :: c2 :: r => (0x80 ≤ c1 && c1 ≤ 0x9F) && utf8Cont c2 && utf8Valid r
      | _ => false
    else if 0xE1 ≤ b && b ≤ 0xEF then
      match rest with
      | c1 :: c2 :: r => utf8Cont c1 && utf8Cont c2 && utf8Valid r
      | _ => false
    else if b = 0xF0 then
      match rest with
      | c1 :: c2 :: c3 :: r => (0x90 ≤ c1 && c1 ≤ 0xBF) && utf8Cont c2 && utf8Cont c3 && utf8Valid r
      | _ => false
    else if 0xF1 ≤ b && b ≤ 0xF3 then
      match rest with
      | c1 :: c2 :: c3 :: r => utf8Cont c1 && utf8Cont c2 && utf8Cont c3 && utf8Valid r
      | _ => false
    else if b = 0xF4 then
      match rest with
      | c1 :: c2 :: c3 :: r => (0x80 ≤ c1 && c1 ≤ 0x8F) && utf8Cont c2 && utf8Cont c3 && utf8Valid r
      | _ => false
    else false

/-- Embedding of `read_str` (`src/bytecode/util.rs`); the parsed string is
kept as its UTF-8 byte sequence, and `String::from_utf8` failing on invalid
UTF-8 is the second `err` case. -/
def readStr (bytes : List Nat) (index : Nat) : RRes (List Nat) :=
  match readU32 bytes index with
  | .ok length =>
    if bytes.length ≤ index + 3 + length then .err
    else
      let s := (bytes.drop (index + 4)).take length
      if utf8Valid s then .ok s else .err
  | .err => .err
  | .crash => .crash

/-- Embedding of `read_bool` (`src/bytecode/util.rs`). -/
def readBool (bytes : List Nat) (index : Nat) : RRes Bool :=
  match bytes.get? index with
  | none => .err
  | some b => .ok (b ≠ 0)

/-- Embedding of `Constant::from_bytes` (`src/bytecode/ops.rs`).  The first
step mirrors the unchecked index expression `&bytes[index]` on the tag byte:
if `index` is past the end of the slice, the Rust code panics, which is the
`crash` outcome. -/
def constFromBytes (bytes : List Nat) (index : Nat) : RRes (Constant × Nat) :=
  match bytes.get? index with
  | none => .crash
  | some tag =>
    if tag = 0x01 then
      match readI64 bytes (index + 1) with
      | .ok n => .ok (.int n, 9)
      | .err => .err
      | .crash => .crash
    else if tag = 0x02 then
      match readF64 bytes (index + 1) with
      | .ok n => .ok (.float n, 9)
      | .err => .err
      | .crash => .crash
    else if tag = 0x03 then
      match readStr bytes (index + 1) with
      | .ok s => .ok (.string s, s.length + 5)
      | .err => .err
      | .crash => .crash
    else if tag = 0x04 then
      match readBool bytes (index + 1) with
      | .ok b => .ok (.bool b, 2)
      | .err => .err
      | .crash => .crash
    else .err

/-- Embedding of `Op::from_bytes` (`src/bytecode/ops.rs`).  As in
`constFromBytes`, a missing tag byte is an out-of-bounds index panic. -/
def opFromBytes (bytes : List Nat) (index : Nat) : RRes (Op × Nat) :=
  match bytes.get? index with
  | none => .crash
  | some tag =>
    if tag = 0x00 then .ok (.noOp, 1)
    else if tag = 0x01 then
      match readU32 bytes (index + 1) with
      | .ok n => .ok (.constant n, 5)
      | .err => .err
      | .crash => .crash
    else if tag = 0x02 then .ok (.ret, 1)
    else if tag = 0x03 then .ok (.intAdd, 1)
    else if tag = 0x04 then .ok (.intSub, 1)
    else if tag = 0x05 then .ok (.intMul, 1)
    else if tag = 0x06 then .ok (.intDiv, 1)
    else if tag = 0x07 then .ok (.intMod, 1)
    else if tag = 0x08 then .ok (.intPow, 1)
    else if tag = 0x09 then
      match readU32 bytes (index + 1) with
      | .ok n => .ok (.jump n, 5)
      | .err => .err
      | .crash => .crash
    else if tag = 0x0A then
      match readU32 bytes (index + 1) with
      | .ok n => .ok (.copy n, 5)
      | .err => .err
      | .crash => .crash
    else .err

/-- Embedding of `Bytecode::read_header` (`src/bytecode/reader.rs`). -/
def readHeader (bytes : List Nat) : RRes (Nat × Nat) :=
  match readU32 bytes 0 with
  | .ok m =>
    if m ≠ MAGIC then .err
    else
      match readU32 bytes 4 with
      | .ok c =>
        match readU32 bytes 8 with
        | .ok p => .ok (c, p)
        | .err => .err
        | .crash => .crash
      | .err => .err
      | .crash => .crash
  | .err => .err
  | .crash => .crash

/-- The constant-loading loop of `Bytecode::from_bytes`. -/
def loadConstants (bytes : List Nat) : Nat → Nat → RRes (List Constant × Nat)
  | 0, index => .ok ([], index)
  | n + 1, index =>
    match constFromBytes bytes index with
    | .ok (c, sz) =>
      match loadConstants bytes n (index + sz) with
      | .ok (cs, idx) => .ok (c :: cs, idx)
      | .err => .err
      | .crash => .crash
    | .err => .err
    | .crash => .crash

/-- The operation-loading loop of `Bytecode::from_bytes`. -/
def loadOps (bytes : List Nat) : Nat → Nat → RRes (List Op × Nat)
  | 0, index => .ok ([], index)
  | n + 1, index =>
    match opFromBytes bytes index with
    | .ok (op, sz) =>
      match loadOps bytes n (index + sz) with
      | .ok (ops, idx) => .ok (op :: ops, idx)
      | .err => .err
      | .crash => .crash
    | .err => .err
    | .crash => .crash

/-- Embedding of `Bytecode::from_bytes` (`src/bytecode/reader.rs`). -/
def fromBytes (bytes : List Nat) : RRes Bytecode :=
  match readHeader bytes with
  | .ok (constCount, opCount) =>
    match loadConstants bytes constCount 12 with
    | .ok (cons, index) =>
      match loadOps bytes opCount index with
      | .ok (ops, _) => .ok ⟨ops, cons⟩
      | .err => .err
      | .crash => .crash
    | .err => .err
    | .crash => .crash
  | .err => .err
  | .crash => .crash

end ByteReader

namespace TypeNames

/-- Intermediate-representation data types (`src/compiler/ir.rs` and the
identical copy in `src/compiler/ir_datatype.rs`, `enum IRDataType`). -/
inductive IRDataType where
  | unresolved (name : String)
  | unknown
  | int
  | float
  | string
  | char
  | bool
  | error
  | null
  | list (t : IRDataType)
  | array (t : IRDataType) (n : Nat)
  | option (t : IRDataType)
  | result (t : IRDataType)
  | tuple (ts : List IRDataType)
  | dictionary (k v : IRDataType)
  | struct (name : String) (fields : List (String × IRDataType))

/-- Whitespace class of the `regex` crate (`\s`, ASCII part). -/
def isWsChar (c : Char) : Bool :=
  c = ' ' || c = '\t' || c = '\n' || c = '\r' || c = '\x0b' || c = '\x0c'

/-- Characters matched by the regex metacharacter `.` (anything but a
newline). -/
def dotOk (c : Char) : Bool := c ≠ '\n'

/-- Length of the maximal prefix matched by a greedy `.+` / `.*`. -/
def dotRun (cs : List Char) : Nat := (cs.takeWhile dotOk).length

/-- Length of the maximal prefix matched by a greedy `\s*`. -/
def wsRun (cs : List Char) : Nat := (cs.takeWhile isWsChar).length

/-- The list `[n, n-1, ..., 0]`: candidate lengths of a greedy repetition,
in the order a backtracking regex engine tries them. -/
def downFrom : Nat → List Nat
  | 0 => [0]
  | n + 1 => (n + 1) :: downFrom n

/-- Largest `e` with `1 ≤ e ≤ bound` satisfying `p`, or `none`: the greedy
backtracking choice of the length of a `(.+)` group followed by a fixed
suffix. -/
def findGreedy (p : Nat → Bool) : Nat → Option Nat
  | 0 => none
  | e + 1 => if p (e + 1) then some (e + 1) else findGreedy p e

/-- Capture 0 (the whole match) of `(.+)\[\]` on a list of characters
starting at the given list, or `none` if the pattern does not match at this
start. -/
def listTry (cs : List Char) : Option (List Char) :=
  match findGreedy
      (fun e => cs.get? e == some '[' && cs.get? (e + 1) == some ']')
      (dotRun cs) with
  | some e => some (cs.take (e + 2))
  | none => none

/-- Leftmost-first match of `LIST_RE` = `(.+)\[\]` (`Regex::captures`),
returning capture 0. -/
def listScan : List Char → Option (List Char)
  | [] => none
  | c :: rest =>
    match listTry (c :: rest) with
    | some w => some w
    | none => listScan rest

/-- Capture 0 of `LIST_RE` on a string. -/
def listCaptures (s : String) : Option String := (listScan s.data).map fun l => ⟨l⟩

/-- Number of leading copies of the literal `0-9` (the regex `ARRAY_RE` is
written `(.+)\[(0-9)+\]`, so `(0-9)` is the three literal characters, not a
digit class). -/
def count09 : List Char → Nat
  | '0' :: '-' :: '9' :: rest => count09 rest + 1
  | _ => 0

/-- Captures 0 and 1 of `(.+)\[(0-9)+\]` at the given start, or `none`. -/
def arrayTry (cs : List Char) : Option (List Char × List Char) :=
  match findGreedy
      (fun e =>
        cs.get? e == some '[' &&
        decide (1 ≤ count09 (cs.drop (e + 1))) &&
        cs.get? (e + 1 + 3 * count09 (cs.drop (e + 1))) == some ']')
      (dotRun cs) with
  | some e => some (cs.take (e + 2 + 3 * count09 (cs.drop (e + 1))), cs.take e)
  | none => none

/-- Leftmost-first captures (0 and 1) of `ARRAY_RE` = `(.+)\[(0-9)+\]`. -/
def arrayScan : List Char → Option (List Char × List Char)
  | [] => none
  | c :: rest =>
    match arrayTry (c :: rest) with
    | some w => some w
    | none => arrayScan rest

/-- Captures 0 and 1 of `ARRAY_RE` on a string. -/
def arrayCaptures (s : String) : Option (String × String) :=
  (arrayScan s.data).map fun p => (⟨p.1⟩, ⟨p.2⟩)

/-- Capture 0 of `(.+)x` for a literal final character `x` (`OPTION_RE` with
`x = ?`, `RESULT_RE` with `x = !`) at the given start. -/
def suffixTry (x : Char) (cs : List Char) : Option (List Char) :=
  match findGreedy (fun e => cs.get? e == some x) (dotRun cs) with
  | some e => some (cs.take (e + 1))
  | none => none

/-- Leftmost-first capture 0 of `(.+)x` for a literal final character. -/
def suffixScan (x : Char) : List Char → Option (List Char)
  | [] => none
  | c :: rest =>
    match suffixTry x (c :: rest) with
    | some w => some w
    | none => suffixScan x rest

/-- Capture 0 of `OPTION_RE` = `(.+)\?` on a string. -/
def optionCaptures (s : String) : Option String := (suffixScan '?' s.data).map fun l => ⟨l⟩

/-- Capture 0 of `RESULT_RE` = `(.+)!` on a string. -/
def resultCaptures (s : String) : Option String := (suffixScan '!' s.data).map fun l => ⟨l⟩

/-- Backtracking match of `TUPLE_RE` = `\(\s*,?\s*(.+)\s*\)` at the given
start, enumerating the candidate lengths of each greedy sub-pattern in the
engine's preference order and taking the first combination that matches.
Returns `(capture 0, capture 1)`. -/
def tupleTry (cs : List Char) : Option (List Char × List Char) :=
  if cs.get? 0 ≠ some '(' then none
  else
    ((downFrom (wsRun (cs.drop 1))).flatMap fun a =>
      ([true, false].filter fun hasComma =>
          !hasComma || cs.get? (1 + a) == some ',').flatMap fun hasComma =>
        let p1 := 1 + a + (if hasComma then 1 else 0)
        (downFrom (wsRun (cs.drop p1))).flatMap fun b =>
          let p2 := p1 + b
          ((downFrom (dotRun (cs.drop p2))).filter (1 ≤ ·)).flatMap fun e =>
            let p3 := p2 + e
            (downFrom (wsRun (cs.drop p3))).filterMap fun w =>
              if cs.get? (p3 + w) == some ')' then
                some (cs.take (p3 + w + 1), (cs.drop p2).take e)
              else none).head?

/-- Leftmost-first captures of `TUPLE_RE`. -/
def tupleScan : List Char → Option (List Char × List Char)
  | [] => none
  | c :: rest =>
    match tupleTry (c :: rest) with
    | some w => some w
    | none => tupleScan rest

/-- Captures 0 and 1 of `TUPLE_RE` on a string. -/
def tupleCaptures (s : String) : Option (String × String) :=
  (tupleScan s.data).map fun p => (⟨p.1⟩, ⟨p.2⟩)

/-- Backtracking match of `DICTIONARY_RE` = `\{\s*(.+)\s*:\s*(.+)\s*\}` at
the given start, in engine preference order.  Returns `(capture 0,
capture 1)`. -/
def dictTry (cs : List Char) : Option (List Char × List Char) :=
  if cs.get? 0 ≠ some '{' then none
  else
    ((downFrom (wsRun (cs.drop 1))).flatMap fun a =>
      let p1 := 1 + a
      (((downFrom (dotRun (cs.drop p1))).filter (1 ≤ ·)).flatMap fun e1 =>
        let p2 := p1 + e1
        (downFrom (wsRun (cs.drop p2))).flatMap fun w1 =>
          if cs.get? (p2 + w1) ≠ some ':' then []
          else
            let p3 := p2 + w1 + 1
            (downFrom (wsRun (cs.drop p3))).flatMap fun b =>
              let p4 := p3 + b
              ((downFrom (dotRun (cs.drop p4))).filter (1 ≤ ·)).flatMap fun e2 =>
                let p5 := p4 + e2
                (downFrom (wsRun (cs.drop p5))).filterMap fun w2 =>
                  if cs.get? (p5 + w2) == some '}' then
                    some (cs.take (p5 + w2 + 1), (cs.drop p1).take e1)
                  else none)).head?

/-- Leftmost-first captures of `DICTIONARY_RE`. -/
def dictScan : List Char → Option (List Char × List Char)
  | [] => none
  | c :: rest =>
    match dictTry (c :: rest) with
    | some w => some w
    | none => dictScan rest

/-- Captures 0 and 1 of `DICTIONARY_RE` on a string. -/
def dictCaptures (s : String) : Option (String × String) :=
  (dictScan s.data).map fun p => (⟨p.1⟩, ⟨p.2⟩)

/-- Embedding of `str::parse::<u32>` restricted to plain digit strings (a
leading `+` sign, which Rust also accepts, never occurs in the inputs the
compiler feeds it). -/
def parseU32 (s : String) : Option Nat :=
  if s.data ≠ [] ∧ s.data.all (·.isDigit) then
    let n := s.data.foldl (fun a c => a * 10 + (c.toNat - '0'.toNat)) 0
    if n < 2 ^ 32 then some n else none
  else none

/-- Fuelled embedding of `IRDataType::from` (`src/compiler/ir.rs` lines
390-435; `src/compiler/ir_datatype.rs` is identical).  The Rust function
recurses on `&caps[0]` — capture 0, the whole regex match — exactly as the
source does.  `none` means the recursion exhausted the fuel (the Rust call
would still be recursing, growing the stack), or, in the array branch, that
`caps[1].parse::<u32>().unwrap()` panicked. -/
def fromNameF : Nat → String → Option IRDataType
  | 0, _ => none
  | fuel + 1, name =>
    if name = "Int" then some .int
    else if name = "Float" then some .float
    else if name = "String" then some .string
    else if name = "Char" then some .char
    else if name = "Bool" then some .bool
    else if name = "Error" then some .error
    else if name = "Null" then some .null
    else
      match listCaptures name with
      | some whole => (fromNameF fuel whole).map .list
      | none =>
        match arrayCaptures name with
        | some (whole, grp1) =>
          match parseU32 grp1 with
          | none => none
          | some count => (fromNameF fuel whole).map fun t => .array t count
        | none =>
          match optionCaptures name with
          | some whole => (fromNameF fuel whole).map .option
          | none =>
            match resultCaptures name with
            | some whole => (fromNameF fuel whole).map .result
            | none =>
              match tupleCaptures name with
              | some (whole, grp1) =>
                match fromNameF fuel whole, fromNameF fuel grp1 with
                | some t0, some t1 => some (.tuple [t0, t1])
                | _, _ => none
              | none =>
                match dictCaptures name with
                | some (whole, grp1) =>
                  match fromNameF fuel whole, fromNameF fuel grp1 with
                  | some k, some v => some (.dictionary k v)
                  | _, _ => none
                | none => some (.unresolved name)

end TypeNames

namespace Compiler

open TypeNames (IRDataType fromNameF)

/-- Source position of an AST node (`src/parser/nodes.rs`,
`struct NodePosition`). -/
structure NodePosition where
  line : Nat
  col : Nat
deriving DecidableEq

/-- Input of an IR statement node (`src/compiler/ir.rs`,
`enum IRNodeInput`). -/
inductive IRNodeInput where
  | functionParam (i : Nat)
  | hiddenNode (i : Nat)
deriving DecidableEq

/-- Function call of an IR statement node (`src/compiler/ir.rs`,
`enum IRFuncCall`).  The `f64` of a float constant is represented by its
64-bit pattern. -/
inductive IRFuncCall where
  | external (name : String)
  | internal (index : Nat)
  | unresolved (name : String)
  | intConstant (v : Int)
  | floatConstant (bits : Nat)
  | stringConstant (s : String)
  | charConstant (c : Char)
  | boolConstant (b : Bool)
deriving DecidableEq

/-- An IR statement node (`src/compiler/ir.rs`, `struct IRNode`). -/
structure IRNode where
  function : IRFuncCall
  inputs : List IRNodeInput
  output : IRDataType

/-- An IR function (`src/compiler/ir.rs`, `struct IRFunction`). -/
structure IRFunction where
  ident_path : List String
  accessability : Nat
  inputs : List IRDataType
  output : IRDataType
  statements : List IRNode

/-- An IR struct (`src/compiler/ir.rs`, `struct IRStruct`). -/
structure IRStruct where
  ident_path : List String
  accessability : Nat
  fields : List (String × IRDataType)

/-- An IR program context (`src/compiler/ir.rs`, `struct IRContext`).
`add_struct` and `add_function` push to the respective vectors. -/
structure IRContext where
  structs : List IRStruct
  functions : List IRFunction

/-- The IR-level compile errors (`src/ir/errors.rs`, `enum IRError`); these
two variants are its only ones. -/
inductive IRError where
  | identifierAlreadyExists (name : String)
  | unknownIdentifier (name : String)
deriving DecidableEq

/-- A positioned compile error (`src/ir/errors.rs`,
`struct CompilerError`). -/
structure CompilerError where
  source : IRError
  position : NodePosition
deriving DecidableEq

/-- Result of a compilation step.  `ok` is `Ok(..)`, `err` is
`Err(CompilerError)`, and `hang` is a call that never returns: either the
unbounded recursion inside `IRDataType::from`, or a panic
(`todo!()` on inner variables, or the `unwrap` in the array branch of
`IRDataType::from`). -/
inductive CRes (α : Type) where
  | ok (val : α)
  | err (e : CompilerError)
  | hang

/-- A named argument of a function or struct (`src/parser/nodes.rs`,
`struct ArgumentNode`). -/
structure ArgumentNode where
  position : NodePosition
  name : String
  dtype : String
deriving DecidableEq

/-- A list of named arguments (`src/parser/nodes.rs`,
`struct ArgumentListNode`). -/
structure ArgumentListNode where
  position : NodePosition
  arguments : List ArgumentNode
deriving DecidableEq

/-- A variable reference (`src/parser/nodes.rs`, `struct VariableNode`). -/
structure VariableNode where
  position : NodePosition
  name : String
deriving DecidableEq

/-- An expression (`src/parser/nodes.rs`, `enum ExpressionNode`).  The
wrapped literal structs (`IntLiteralNode` and so on) and the
`FunctionCallNode` with its `ExpressionListNode` are flattened into
constructor fields; a float literal is represented by its 64-bit pattern. -/
inductive ExpressionNode where
  | intLiteral (position : NodePosition) (value : Int)
  | floatLiteral (position : NodePosition) (bits : Nat)
  | stringLiteral (position : NodePosition) (value : String)
  | boolLiteral (position : NodePosition) (value : Bool)
  | functionCall (position : NodePosition) (function_name : String) (serial : Bool)
      (external : Bool) (argumentsPos : NodePosition) (arguments : List ExpressionNode)
  | var (v : VariableNode)
  | innerVariable (position : NodePosition) (path : List String)

/-- An assignment statement (`src/parser/nodes.rs`,
`struct AssignmentNode`); `var` is the Rust field `variable`. -/
structure AssignmentNode where
  position : NodePosition
  var : Option VariableNode
  expression : ExpressionNode

/-- A struct declaration (`src/parser/nodes.rs`, `struct StructNode`);
`exported` is the Rust field `export`. -/
structure StructNode where
  position : NodePosition
  name : String
  exported : Bool
  fields : ArgumentListNode
deriving DecidableEq

/-- A function declaration (`src/parser/nodes.rs`, `struct FunctionNode`);
`exported` is the Rust field `export`. -/
inductive FunctionNode where
  | mk (position : NodePosition) (name : String) (exported : Bool) (serial : Bool)
      (params : ArgumentListNode) (returns : ArgumentListNode)
      (functions : List FunctionNode) (structs : List StructNode)
      (assignments : List AssignmentNode)

/-- Projection: the `name` field of a `FunctionNode`. -/
def FunctionNode.name : FunctionNode → String
  | .mk _ n _ _ _ _ _ _ _ => n

/-- Projection: the `export` field of a `FunctionNode`. -/
def FunctionNode.exported : FunctionNode → Bool
  | .mk _ _ e _ _ _ _ _ _ => e

/-- Projection: the `params` field of a `FunctionNode`. -/
def FunctionNode.params : FunctionNode → ArgumentListNode
  | .mk _ _ _ _ p _ _ _ _ => p

/-- Projection: the `returns` field of a `FunctionNode`. -/
def FunctionNode.returns : FunctionNode → ArgumentListNode
  | .mk _ _ _ _ _ r _ _ _ => r

/-- Projection: the `functions` field of a `FunctionNode`. -/
def FunctionNode.functions : FunctionNode → List FunctionNode
  | .mk _ _ _ _ _ _ fs _ _ => fs

/-- Projection: the `structs` field of a `FunctionNode`. -/
def FunctionNode.structs : FunctionNode → List StructNode
  | .mk _ _ _ _ _ _ _ ss _ => ss

/-- Projection: the `assignments` field of a `FunctionNode`. -/
def FunctionNode.assignments : FunctionNode → List AssignmentNode
  | .mk _ _ _ _ _ _ _ _ a => a

/-- A module declaration (`src/parser/nodes.rs`, `struct ModuleNode`);
`exported` is the Rust field `export`. -/
inductive ModuleNode where
  | mk (position : NodePosition) (name : String) (exported : Bool)
      (modules : List ModuleNode) (functions : List FunctionNode)
      (structs : List StructNode)

/-- Projection: the `name` field of a `ModuleNode`. -/
def ModuleNode.name : ModuleNode → String
  | .mk _ n _ _ _ _ => n

/-- Projection: the `export` field of a `ModuleNode`. -/
def ModuleNode.exported : ModuleNode → Bool
  | .mk _ _ e _ _ _ => e

/-- Projection: the `modules` field of a `ModuleNode`. -/
def ModuleNode.modules : ModuleNode → List ModuleNode
  | .mk _ _ _ ms _ _ => ms

/-- Projection: the `functions` field of a `ModuleNode`. -/
def ModuleNode.functions : ModuleNode → List FunctionNode
  | .mk _ _ _ _ fs _ => fs

/-- Projection: the `structs` field of a `ModuleNode`. -/
def ModuleNode.structs : ModuleNode → List StructNode
  | .mk _ _ _ _ _ ss => ss

/-- The root context node (`src/parser/nodes.rs`, `struct ContextNode`). -/
structure ContextNode where
  modules : List ModuleNode

/-- Registered metadata of an external function
(`src/runtime/registry/function.rs`, `struct FuncMeta`; the Rust callback
pointer is not represented). -/
structure FuncMeta where
  name : String
  input_args : List IRDataType
  output : IRDataType

/-- Embedding of `FunctionRegistry::get_function`
(`src/runtime/registry/function.rs`): first entry with the given name. -/
def getFunction (functions : List FuncMeta) (name : String) : Option FuncMeta :=
  functions.find? fun f => f.name == name

mutual

/-- Embedding of `expression_contains_variable` (`src/compiler/ir.rs`).  For
an `InnerVariable` the Rust code indexes `v.path[0]`; an empty path (which
the parser never produces) would panic, and is mapped to a comparison with
the empty string here. -/
def exprContainsVar (v : VariableNode) : ExpressionNode → Bool
  | .intLiteral _ _ => false
  | .floatLiteral _ _ => false
  | .stringLiteral _ _ => false
  | .boolLiteral _ _ => false
  | .var w => w.name == v.name
  | .innerVariable _ path => path.headD "" == v.name
  | .functionCall _ _ _ _ _ args => exprListContainsVar v args

/-- The `iter().any(..)` fold inside `expression_contains_variable`. -/
def exprListContainsVar (v : VariableNode) : List ExpressionNode → Bool
  | [] => false
  | e :: rest => exprContainsVar v e || exprListContainsVar v rest

end

/-- The comparator passed to `sort_by` in `parse_function_statements`
(`src/compiler/ir.rs`). -/
def cmpAssign (a b : AssignmentNode) : Ordering :=
  match a.var, b.var with
  | none, _ => .eq
  | _, none => .eq
  | some av, some bv =>
    if exprContainsVar av b.expression then .lt
    else if exprContainsVar bv a.expression then .gt
    else .eq

/-- Stable insertion of an element into an already processed prefix: the
element is placed before the first entry that compares greater than it. -/
def insertCmp (x : AssignmentNode) : List AssignmentNode → List AssignmentNode
  | [] => [x]
  | y :: ys =>
    match cmpAssign y x with
    | .gt => x :: y :: ys
    | _ => y :: insertCmp x ys

/-- Model of `Vec::sort_by` with `cmpAssign` — a stable sort; on inputs
where the comparator is consistent, every stable sort produces the same
permutation. -/
def sortAssignments (l : List AssignmentNode) : List AssignmentNode :=
  l.foldl (fun acc x => insertCmp x acc) []

/-- Embedding of `verify_no_circular_deps` (`src/compiler/ir.rs` line 728):
the Rust body is `// TODO` followed by `Ok(())`, so it accepts every
assignment list. -/
def verifyNoCircularDeps (_assignments : List AssignmentNode) : CRes Unit := .ok ()

mutual

/-- Embedding of `parse_expression_into_nodes` (`src/compiler/ir.rs`).
Returns the extended node vector together with the `IRNodeInput` the
expression evaluates to.  Note that a plain variable expression returns
early without pushing any node, and `InnerVariable` is `todo!()` — a
panic. -/
def parseExpr (assignments : List AssignmentNode) (params : List ArgumentNode)
    (reg : List FuncMeta) (expr : ExpressionNode) (nodes : List IRNode) :
    CRes (List IRNode × IRNodeInput) :=
  match expr with
  | .intLiteral _ v =>
    .ok (nodes ++ [⟨.intConstant v, [], .int⟩], .hiddenNode nodes.length)
  | .floatLiteral _ b =>
    .ok (nodes ++ [⟨.floatConstant b, [], .float⟩], .hiddenNode nodes.length)
  | .stringLiteral _ s =>
    .ok (nodes ++ [⟨.stringConstant s, [], .string⟩], .hiddenNode nodes.length)
  | .boolLiteral _ b =>
    .ok (nodes ++ [⟨.boolConstant b, [], .bool⟩], .hiddenNode nodes.length)
  | .var v =>
    match params.findIdx? (fun a => a.name == v.name) with
    | some p => .ok (nodes, .functionParam p)
    | none =>
      match (assignments.filterMap (fun a => a.var)).findIdx? (fun a => a.name == v.name) with
      | some p => .ok (nodes, .hiddenNode p)
      | none => .err ⟨.unknownIdentifier v.name, v.position⟩
  | .innerVariable _ _ => .hang
  | .functionCall pos fname _ ext _ args =>
    match parseExprList assignments params reg args nodes with
    | .ok (nodes2, inputs) =>
      if ext then
        match getFunction reg fname with
        | some extFunc =>
          .ok (nodes2 ++ [⟨.external fname, inputs, extFunc.output⟩], .hiddenNode nodes2.length)
        | none => .err ⟨.unknownIdentifier fname, pos⟩
      else
        .ok (nodes2 ++ [⟨.unresolved fname, inputs, .unknown⟩], .hiddenNode nodes2.length)
    | .err e => .err e
    | .hang => .hang

/-- The argument loop of the `FunctionCall` arm of
`parse_expression_into_nodes`. -/
def parseExprList (assignments : List AssignmentNode) (params : List ArgumentNode)
    (reg : List FuncMeta) (args : List ExpressionNode) (nodes : List IRNode) :
    CRes (List IRNode × List IRNodeInput) :=
  match args with
  | [] => .ok (nodes, [])
  | e :: rest =>
    match parseExpr assignments params reg e nodes with
    | .ok (nodes2, input) =>
      match parseExprList assignments params reg rest nodes2 with
      | .ok (nodes3, inputs) => .ok (nodes3, input :: inputs)
      | .err e2 => .err e2
      | .hang => .hang
    | .err e2 => .err e2
    | .hang => .hang

end

/-- The statement loop of `parse_function_statements`: each assignment of
the original (unsorted) vector is parsed; its resulting input is
discarded. -/
def parseAssignments (assignments : List AssignmentNode) (params : List ArgumentNode)
    (reg : List FuncMeta) : List AssignmentNode → List IRNode → CRes (List IRNode)
  | [], nodes => .ok nodes
  | a :: rest, nodes =>
    match parseExpr assignments params reg a.expression nodes with
    | .ok (nodes2, _) => parseAssignments assignments params reg rest nodes2
    | .err e => .err e
    | .hang => .hang

/-- Embedding of `parse_function_statements` (`src/compiler/ir.rs`).  The
sorted clone is used only for resolving local variable positions; the
emission loop iterates the original `function.assignments`. -/
def parseFunctionStatements (f : FunctionNode) (reg : List FuncMeta) : CRes (List IRNode) :=
  match verifyNoCircularDeps f.assignments with
  | .ok _ =>
    let sorted := sortAssignments f.assignments
    parseAssignments sorted f.params.arguments reg f.assignments []
  | .err e => .err e
  | .hang => .hang

/-- The field loop of `load_struct` (`src/compiler/ir.rs`):
`IRDataType::from` is evaluated on the field type, then `add_field` rejects
duplicate field names. -/
def addFields (fuel : Nat) (fields : List (String × IRDataType)) :
    List ArgumentNode → CRes (List (String × IRDataType))
  | [] => .ok fields
  | fld :: rest =>
    match fromNameF fuel fld.dtype with
    | none => .hang
    | some t =>
      if fields.any (fun p => p.1 == fld.name) then
        .err ⟨.identifierAlreadyExists fld.name, fld.position⟩
      else addFields fuel (fields ++ [(fld.name, t)]) rest

/-- Embedding of `load_struct` (`src/compiler/ir.rs`). -/
def loadStruct (fuel : Nat) (ctx : IRContext) (path : List String) (st : StructNode)
    (acc : Nat) : CRes IRContext :=
  let path2 := path ++ [st.name]
  match addFields fuel [] st.fields.arguments with
  | .ok fields => .ok { ctx with structs := ctx.structs ++ [⟨path2, acc, fields⟩] }
  | .err e => .err e
  | .hang => .hang

/-- The struct loop of `load_module` / `load_function`. -/
def loadStructs (fuel : Nat) (ctx : IRContext) (path : List String) :
    List StructNode → Nat → CRes IRContext
  | [], _ => .ok ctx
  | st :: rest, acc =>
    match loadStruct fuel ctx path st acc with
    | .ok c2 => loadStructs fuel c2 path rest acc
    | .err e => .err e
    | .hang => .hang

/-- The parameter/return type loops of `load_function`. -/
def mapTypes (fuel : Nat) : List ArgumentNode → CRes (List IRDataType)
  | [] => .ok []
  | a :: rest =>
    match fromNameF fuel a.dtype with
    | none => .hang
    | some t =>
      match mapTypes fuel rest with
      | .ok ts => .ok (t :: ts)
      | .err e => .err e
      | .hang => .hang

/-- Sequential loading of a list of child elements, threading the context
and propagating the first failure: the shape of the `for` loops of
`load_module` and `load_function`. -/
def loadSeq {α : Type} (f : IRContext → α → CRes IRContext) :
    IRContext → List α → CRes IRContext
  | ctx, [] => .ok ctx
  | ctx, x :: rest =>
    match f ctx x with
    | .ok c2 => loadSeq f c2 rest
    | .err e => .err e
    | .hang => .hang

/-- Embedding of `load_function` (`src/compiler/ir.rs`): push the name on
the path, increment the depth, reset the accessibility to the new depth
unless exported, load nested functions, then nested structs, then compute
input and output types and statements, and append the function itself.
The first argument bounds the nesting depth of the walk (Rust recurses
without bound); `hang` on exhaustion. -/
def loadFunction : Nat → List FuncMeta → IRContext → List String → FunctionNode →
    Nat → Nat → CRes IRContext
  | 0, _, _, _, _, _, _ => .hang
  | fuel + 1, reg, ctx, path, f, depth, acc =>
    let path2 := path ++ [f.name]
    let depth2 := depth + 1
    let acc2 := if f.exported then acc else depth2
    match loadSeq (fun c g => loadFunction fuel reg c path2 g depth2 acc2) ctx f.functions with
    | .ok c2 =>
      match loadStructs fuel c2 path2 f.structs acc2 with
      | .ok c3 =>
        match mapTypes fuel f.params.arguments with
        | .ok inputs =>
          match mapTypes fuel f.returns.arguments with
          | .ok outputs =>
            let output : IRDataType :=
              match outputs with
              | [] => .null
              | [t] => t
              | ts => .tuple ts
            match parseFunctionStatements f reg with
            | .ok statements =>
              .ok { c3 with
                functions := c3.functions ++ [⟨path2, acc2, inputs, output, statements⟩] }
            | .err e => .err e
            | .hang => .hang
          | .err e => .err e
          | .hang => .hang
        | .err e => .err e
        | .hang => .hang
      | .err e => .err e
      | .hang => .hang
    | .err e => .err e
    | .hang => .hang

/-- Embedding of `load_module` (`src/compiler/ir.rs`): push the name on the
path, increment the depth, reset the accessibility to the new depth unless
exported, then load nested modules, functions, and structs. -/
def loadModule : Nat → List FuncMeta → IRContext → List String → ModuleNode →
    Nat → Nat → CRes IRContext
  | 0, _, _, _, _, _, _ => .hang
  | fuel + 1, reg, ctx, path, m, depth, acc =>
    let path2 := path ++ [m.name]
    let depth2 := depth + 1
    let acc2 := if m.exported then acc else depth2
    match loadSeq (fun c n => loadModule fuel reg c path2 n depth2 acc2) ctx m.modules with
    | .ok c2 =>
      match loadSeq (fun c g => loadFunction fuel reg c path2 g depth2 acc2) c2 m.functions with
      | .ok c3 => loadStructs fuel c3 path2 m.structs acc2
      | .err e => .err e
      | .hang => .hang
    | .err e => .err e
    | .hang => .hang

/-- Embedding of `compile_context` (`src/compiler/ir.rs`): load every
top-level module into a fresh `IRContext` with empty path, depth 0 and
accessibility 0. -/
def compileContext (fuel : Nat) (reg : List FuncMeta) (context : ContextNode) :
    CRes IRContext :=
  loadSeq (fun c m => loadModule fuel reg c [] m 0 0) ⟨[], []⟩ context.modules

end Compiler

namespace RTBytecode

open Compiler (IRContext IRNode IRFuncCall IRNodeInput FuncMeta getFunction)

/-- Runtime values (`src/data.rs`, `enum Data`; this file is the moved
`runtime/data.rs` — it defines the `VertexFunction` type that
`src/runtime/bytecode.rs` imports from `crate::runtime::data`).  The `f64`
of a float is represented by its 64-bit pattern. -/
inductive Data where
  | null
  | int (v : Int)
  | float (bits : Nat)
  | string (s : String)
  | char (c : Char)
  | bool (b : Bool)
  | struct (struct_type : String) (fields : List Data)
  | list (values : List Data)
  | array (values : List Data)
  | error (message : String)
  | option (inner : Data)
  | result (inner : Data)
  | tuple (values : List Data)
  | dictionary (keys : List Data) (values : List Data)

/-- NaN test on a 64-bit IEEE-754 pattern: exponent all ones and a nonzero
mantissa. -/
def f64IsNaN (bits : Nat) : Bool := (bits >>> 52) % 2048 == 2047 && bits % 2 ^ 52 != 0

/-- Zero test on a 64-bit IEEE-754 pattern: every bit below the sign clear
(so both `+0.0` and `-0.0`). -/
def f64IsZero (bits : Nat) : Bool := bits % 2 ^ 63 == 0

/-- IEEE-754 equality of two `f64` values given by their bit patterns, as
Rust `f64: PartialEq` behaves: false when either side is NaN, true for
`0.0 == -0.0`, and otherwise exactly bit equality. -/
def f64Eq (a b : Nat) : Bool :=
  !f64IsNaN a && !f64IsNaN b && (a == b || (f64IsZero a && f64IsZero b))

mutual

/-- The derived `PartialEq` of `Data` (`src/data.rs`): structural equality
with fields compared in order, floats compared by IEEE-754 `f64`
equality. -/
def dataBeq : Data → Data → Bool
  | .null, .null => true
  | .int a, .int b => a == b
  | .float a, .float b => f64Eq a b
  | .string a, .string b => a == b
  | .char a, .char b => a == b
  | .bool a, .bool b => a == b
  | .struct n1 f1, .struct n2 f2 => n1 == n2 && dataListBeq f1 f2
  | .list a, .list b => dataListBeq a b
  | .array a, .array b => dataListBeq a b
  | .error a, .error b => a == b
  | .option a, .option b => dataBeq a b
  | .result a, .result b => dataBeq a b
  | .tuple a, .tuple b => dataListBeq a b
  | .dictionary k1 v1, .dictionary k2 v2 => dataListBeq k1 k2 && dataListBeq v1 v2
  | _, _ => false

/-- The derived `PartialEq` of `Vec<Data>`: equal lengths and elementwise
equality. -/
def dataListBeq : List Data → List Data → Bool
  | [], [] => true
  | x :: xs, y :: ys => dataBeq x y && dataListBeq xs ys
  | _, _ => false

end

/-- A function call of a bytecode operation (`src/runtime/bytecode.rs`,
`enum FunctionCall`). -/
inductive FunctionCall where
  | internal (i : Nat)
  | external (i : Nat)
  | constant (i : Nat)
deriving DecidableEq

/-- An operation input pointer (`src/runtime/bytecode.rs`,
`enum OperationInput`). -/
inductive OperationInput where
  | param (i : Nat)
  | hidden (i : Nat)
deriving DecidableEq

/-- A bytecode operation (`src/runtime/bytecode.rs`, `struct Operation`). -/
structure Operation where
  function_call : FunctionCall
  inputs : List OperationInput
deriving DecidableEq

/-- The assembled bytecode (`src/runtime/bytecode.rs`,
`struct VertexBytecode`).  An `ExternalFunction` entry is represented by its
name; the Rust callback pointer is not represented.  An `InternalFunction`
is its operation list. -/
structure VertexBytecode where
  external_functions : List String
  internal_functions : List (List Operation)
  constants : List Data

/-- Embedding of `add_const` (`src/runtime/bytecode.rs` lines 246-253): the
first pool entry equal (under the `Data` `PartialEq`) to the constant is
reused; otherwise the constant is appended. -/
def addConst (bc : VertexBytecode) (c : Data) : VertexBytecode × FunctionCall :=
  match bc.constants.findIdx? (fun e => dataBeq e c) with
  | some index => (bc, .constant index)
  | none => ({ bc with constants := bc.constants ++ [c] }, .constant bc.constants.length)

/-- Embedding of `add_ext_func` (`src/runtime/bytecode.rs`): reuse the first
table entry with the same name, else register from the registry; `none` is
the `panic!("Unknown function")` for unregistered names. -/
def addExtFunc (bc : VertexBytecode) (reg : List FuncMeta) (name : String) :
    Option (VertexBytecode × FunctionCall) :=
  match bc.external_functions.findIdx? (fun f => f == name) with
  | some index => some (bc, .external index)
  | none =>
    match getFunction reg name with
    | some _ =>
      some ({ bc with external_functions := bc.external_functions ++ [name] },
        .external bc.external_functions.length)
    | none => none

/-- The per-statement call dispatch of `bytecode_from_ir`
(`src/runtime/bytecode.rs`); `none` on an `Unresolved` call is the
`panic!("Cannot load bytecode from unresolved functions!")`. -/
def assembleCall (bc : VertexBytecode) (reg : List FuncMeta) :
    IRFuncCall → Option (VertexBytecode × FunctionCall)
  | .external f => addExtFunc bc reg f
  | .internal f => some (bc, .internal f)
  | .intConstant v => some (addConst bc (.int v))
  | .floatConstant v => some (addConst bc (.float v))
  | .stringConstant v => some (addConst bc (.string v))
  | .charConstant v => some (addConst bc (.char v))
  | .boolConstant v => some (addConst bc (.bool v))
  | .unresolved _ => none

/-- The input translation of `bytecode_from_ir`. -/
def convInput : IRNodeInput → OperationInput
  | .functionParam i => .param i
  | .hiddenNode i => .hidden i

/-- The statement loop of `bytecode_from_ir`. -/
def assembleStatements (reg : List FuncMeta) :
    List IRNode → VertexBytecode → List Operation → Option (VertexBytecode × List Operation)
  | [], bc, ops => some (bc, ops)
  | st :: rest, bc, ops =>
    match assembleCall bc reg st.function with
    | some (bc2, fc) =>
      assembleStatements reg rest bc2 (ops ++ [⟨fc, st.inputs.map convInput⟩])
    | none => none

/-- The function loop of `bytecode_from_ir`. -/
def assembleFunctions (reg : List FuncMeta) :
    List Compiler.IRFunction → VertexBytecode → Option VertexBytecode
  | [], bc => some bc
  | f :: rest, bc =>
    match assembleStatements reg f.statements bc [] with
    | some (bc2, ops) =>
      assembleFunctions reg rest
        { bc2 with internal_functions := bc2.internal_functions ++ [ops] }
    | none => none

/-- Embedding of `bytecode_from_ir` (`src/runtime/bytecode.rs`). -/
def bytecodeFromIR (ctx : IRContext) (reg : List FuncMeta) : Option VertexBytecode :=
  assembleFunctions reg ctx.functions ⟨[], [], []⟩

/-- The runtime constant produced by a constant-producing IR call, if any. -/
def constDataOf : IRFuncCall → Option Data
  | .intConstant v => some (.int v)
  | .floatConstant b => some (.float b)
  | .stringConstant s => some (.string s)
  | .charConstant c => some (.char c)
  | .boolConstant b => some (.bool b)
  | _ => none

/-- All constant values of the IR's constant-producing nodes, in assembly
traversal order. -/
def irConstants (ctx : IRContext) : List Data :=
  (ctx.functions.map fun f => f.statements.filterMap fun n => constDataOf n.function).flatten

end RTBytecode

namespace Sched

/-- State of a `JobScheduler` (`src/runtime/multithreading/jobs.rs`).  A
single scheduler is modelled, so the `scheduler_uid` checks (which panic
only for handles of a different scheduler) are not represented.  The mpsc
ready-queue channel is modelled by `sent`, the append-only FIFO log of
handles pushed by `PendingJobs::send`; `emitted` is the log of completion
notifications fired through `push_notifications` channels, and
`push_notifications` holds the registered channel keys (`HashMap` keys, so
duplicate-free in any reachable state). -/
structure SchedState where
  min_job_id : Nat
  cur_job_id : Nat
  buffer : List Nat
  sleeping : List (Nat × List Nat)
  hibernating : List (Nat × List Nat)
  push_notifications : List Nat
  sent : List Nat
  emitted : List Nat
deriving DecidableEq

/-- The state `JobScheduler::new` constructs. -/
def initState : SchedState := ⟨0, 1, [], [], [], [], [], []⟩

/-- Result of a scheduler operation: `ok` is a normal return with the new
state, `panicked` is a Rust `panic!` on a violated precondition, and
`nofuel` means the recursion bound of the embedded hibernation cascade was
exhausted (the bound used by the top-level wrappers always suffices for the
actual cascade, which consumes one hibernating entry per recursive call). -/
inductive SRes where
  | ok (s : SchedState)
  | panicked
  | nofuel
deriving DecidableEq

/-- Embedding of `JobScheduler::is_done`. -/
def isDone (s : SchedState) (jid : Nat) : Bool :=
  jid ≤ s.min_job_id || s.buffer.contains jid

/-- The dependency filter of `new_job` and `hibernate`: already-finished
dependencies (at or below the watermark, or in the gap buffer) are
dropped. -/
def filterDeps (s : SchedState) (deps : List Nat) : List Nat :=
  deps.filter fun id => s.min_job_id < id && !s.buffer.contains id

/-- Embedding of `JobScheduler::new_job`: allocate the next id, drop
finished deps, and either push to the ready queue (empty remainder) or
record as sleeping.  Returns the new state and the allocated job id. -/
def newJob (s : SchedState) (deps : List Nat) : SchedState × Nat :=
  let remaining := filterDeps s deps
  let id := s.cur_job_id
  if remaining.isEmpty then
    ({ s with cur_job_id := id + 1, sent := s.sent ++ [id] }, id)
  else
    ({ s with cur_job_id := id + 1, sleeping := s.sleeping ++ [(id, remaining)] }, id)

/-- One pass of the dependency-removal loops of `finish_job` over a list of
sleeping or hibernating entries: in each entry, the first occurrence of the
finished id is removed (`position` + `remove`); entries whose dependency
list becomes empty are collected in iteration order, and the subsequent
`retain` keeps only entries with nonempty dependencies.  Returns the
retained entries and the collected ids. -/
def removeDepEntries (jid : Nat) : List (Nat × List Nat) → List (Nat × List Nat) × List Nat
  | [] => ([], [])
  | (i, d) :: rest =>
    let (rest2, woken) := removeDepEntries jid rest
    if d.contains jid then
      let d2 := d.erase jid
      if d2.isEmpty then (rest2, i :: woken)
      else ((i, d2) :: rest2, woken)
    else if d.isEmpty then (rest2, woken)
    else ((i, d) :: rest2, woken)

/-- The watermark-promotion loop of `finish_job`: while the gap buffer holds
an id at most `min + 1`, remove its first occurrence and advance the
watermark.  The fuel equals the number of loop iterations still possible
(each iteration removes one buffer element, so `buffer.length` at the
wrapper is exact). -/
def promoteF : Nat → Nat → List Nat → Nat × List Nat
  | 0, m, buf => (m, buf)
  | f + 1, m, buf =>
    if buf.any (fun id => id ≤ m + 1) then
      promoteF f (m + 1) (buf.eraseP (fun id => id ≤ m + 1))
    else (m, buf)

/-- The watermark promotion with its exact iteration bound. -/
def promote (m : Nat) (buf : List Nat) : Nat × List Nat := promoteF buf.length m buf

/-- The `for job in finished_jobs { self.finish_job(job) }` cascade loop,
parameterized by the finish function applied to each collected job. -/
def finishListGo (f : SchedState → Nat → SRes) : SchedState → List Nat → SRes
  | s, [] => .ok s
  | s, j :: rest =>
    match f s j with
    | .ok s2 => finishListGo f s2 rest
    | .panicked => .panicked
    | .nofuel => .nofuel

/-- The non-recursive body of `finish_job`, in the Rust order: remove the id
from sleeping entries' deps and push newly unblocked jobs to the ready
queue; remove it from hibernating entries' deps, collecting the emptied
ones (returned as the second component, for the recursive cascade); push
the id into the gap buffer and promote the watermark. -/
def finishPass (s : SchedState) (jid : Nat) : SchedState × List Nat :=
  let ps := removeDepEntries jid s.sleeping
  let ph := removeDepEntries jid s.hibernating
  let s1 : SchedState :=
    { s with sleeping := ps.1, hibernating := ph.1, sent := s.sent ++ ps.2 }
  let pm := promote s1.min_job_id (s1.buffer ++ [jid])
  ({ s1 with min_job_id := pm.1, buffer := pm.2 }, ph.2)

/-- The final step of `finish_job`: fire and discard the job's notification
channel if one is registered. -/
def notifyStep (s : SchedState) (jid : Nat) : SchedState :=
  if s.push_notifications.contains jid then
    { s with push_notifications := s.push_notifications.erase jid,
             emitted := s.emitted ++ [jid] }
  else s

/-- Application of the final notification step to the result of the
cascade, propagating failures. -/
def afterCascade (jid : Nat) : SRes → SRes
  | .ok s3 => .ok (notifyStep s3 jid)
  | .panicked => .panicked
  | .nofuel => .nofuel

/-- Fuelled embedding of `JobScheduler::finish_job`: panic if the job is
still sleeping; otherwise run `finishPass`, recursively finish the
collected hibernating jobs, and fire the notification channel. -/
def finishJobF : Nat → SchedState → Nat → SRes
  | 0, _, _ => .nofuel
  | fuel + 1, s, jid =>
    if s.sleeping.any (fun j => j.1 == jid) then .panicked
    else
      afterCascade jid
        (finishListGo (fun t j => finishJobF fuel t j) (finishPass s jid).1
          (finishPass s jid).2)

/-- `finish_job` with its sufficient recursion bound: every recursive call
consumes at least one hibernating entry, so the cascade depth is at most
the hibernating count. -/
def finishJob (s : SchedState) (jid : Nat) : SRes :=
  finishJobF (s.hibernating.length + 1) s jid

/-- Embedding of `JobScheduler::hibernate`: panic when already hibernating
or still sleeping; drop finished deps; finish immediately when no deps
remain, else record as hibernating. -/
def hibernate (s : SchedState) (jid : Nat) (deps : List Nat) : SRes :=
  if s.hibernating.any (fun j => j.1 == jid) then .panicked
  else if s.sleeping.any (fun j => j.1 == jid) then .panicked
  else
    let remaining := filterDeps s deps
    if remaining.isEmpty then finishJob s jid
    else .ok { s with hibernating := s.hibernating ++ [(jid, remaining)] }

/-- Embedding of `JobScheduler::build_job_notify_channel` as called by
`AsyncJobScheduler::wait_for_job`: no channel is registered for an
already-finished job; otherwise a one-shot channel is stored under the job
id (`HashMap::insert`, so re-registering keeps a single key). -/
def waitForJob (s : SchedState) (jid : Nat) : SchedState :=
  if isDone s jid then s
  else if s.push_notifications.contains jid then s
  else { s with push_notifications := s.push_notifications ++ [jid] }

/-- An API event on one scheduler.  `queue_next` (dequeuing) does not touch
the scheduler state — the channel consumer side is not part of
`JobScheduler` — so it has no event. -/
inductive SEvent where
  | submit (deps : List Nat)
  | hib (jid : Nat) (deps : List Nat)
  | finish (jid : Nat)
  | waitFor (jid : Nat)
deriving DecidableEq

/-- Application of one API event. -/
def applyEvent (s : SchedState) : SEvent → SRes
  | .submit deps => .ok (newJob s deps).1
  | .hib jid deps => hibernate s jid deps
  | .finish jid => finishJob s jid
  | .waitFor jid => .ok (waitForJob s jid)

/-- A sequence of API events, applied left to right. -/
def runTrace : SchedState → List SEvent → SRes
  | s, [] => .ok s
  | s, e :: rest =>
    match applyEvent s e with
    | .ok s2 => runTrace s2 rest
    | .panicked => .panicked
    | .nofuel => .nofuel

end Sched

namespace SchedLemmas

open Sched

/-- Unfolding equation of the promotion loop at positive fuel. -/
theorem promoteF_succ (f m : Nat) (buf : List Nat) :
    promoteF (f + 1) m buf =
      if buf.any (fun id => id ≤ m + 1) then
        promoteF f (m + 1) (buf.eraseP (fun id => id ≤ m + 1))
      else (m, buf) := rfl

/-- Unfolding equation of `finishJobF` at positive fuel. -/
theorem finishJobF_succ (fuel : Nat) (s : SchedState) (jid : Nat) :
    finishJobF (fuel + 1) s jid =
      if s.sleeping.any (fun j => j.1 == jid) then .panicked
      else
        afterCascade jid
          (finishListGo (fun t j => finishJobF fuel t j) (finishPass s jid).1
            (finishPass s jid).2) := rfl

/-- An erased list retains each member unless the predicate holds on it. -/
theorem mem_eraseP_or {p : Nat → Bool} :
    ∀ {l : List Nat} {d : Nat}, d ∈ l → d ∈ l.eraseP p ∨ p d = true := by
  intro l
  induction l with
  | nil => intro d h; cases h
  | cons x t ih =>
    intro d h
    rw [List.eraseP_cons]
    by_cases hx : p x = true
    · rw [hx]
      simp only [cond_true]
      rcases List.mem_cons.mp h with rfl | hd
      · exact Or.inr hx
      · exact Or.inl hd
    · rw [Bool.not_eq_true] at hx
      rw [hx]
      simp only [cond_false]
      rcases List.mem_cons.mp h with rfl | hd
      · exact Or.inl (List.mem_cons_self _ _)
      · exact (ih hd).imp_left (List.mem_cons_of_mem x)

/-- An erased list retains each member different from the erased value. -/
theorem mem_erase_or {l : List Nat} {d j : Nat} (h : d ∈ l) : d ∈ l.erase j ∨ d = j := by
  by_cases hd : d = j
  · exact Or.inr hd
  · exact Or.inl ((List.mem_erase_of_ne hd).mpr h)

/-- A list whose erasure of a member is empty was that singleton. -/
theorem eq_singleton_of_erase_nil {l : List Nat} {a : Nat} (ha : a ∈ l)
    (he : l.erase a = []) : l = [a] := by
  cases l with
  | nil => cases ha
  | cons x t =>
    rw [List.erase_cons] at he
    by_cases hx : x = a
    · subst hx
      rw [if_pos (beq_self_eq_true x)] at he
      rw [he]
    · rw [if_neg (by simpa using hx)] at he
      cases he

/-- The watermark never moves down. -/
theorem promoteF_min_le : ∀ (f m : Nat) (buf : List Nat), m ≤ (promoteF f m buf).1 := by
  intro f
  induction f with
  | zero => intro m buf; exact Nat.le_refl m
  | succ f ih =>
    intro m buf
    rw [promoteF_succ]
    by_cases hb : buf.any (fun id => id ≤ m + 1) = true
    · rw [if_pos hb]
      exact Nat.le_trans (Nat.le_succ m) (ih (m + 1) _)
    · rw [if_neg hb]

/-- Promotion keeps every finished id finished: an id below the watermark
or in the buffer stays below the new watermark or in the new buffer. -/
theorem promoteF_keeps : ∀ (f m : Nat) (buf : List Nat) (d : Nat),
    d ≤ m ∨ d ∈ buf → d ≤ (promoteF f m buf).1 ∨ d ∈ (promoteF f m buf).2 := by
  intro f
  induction f with
  | zero => intro m buf d h; exact h
  | succ f ih =>
    intro m buf d h
    rw [promoteF_succ]
    by_cases hb : buf.any (fun id => id ≤ m + 1) = true
    · rw [if_pos hb]
      refine ih (m + 1) _ d ?_
      rcases h with h | h
      · exact Or.inl (Nat.le_trans h (Nat.le_succ m))
      · rcases mem_eraseP_or h with h2 | h2
        · exact Or.inr h2
        · exact Or.inl (by simpa using h2)
    · rw [if_neg hb]
      exact h

/-- Monotone extension between scheduler states: the watermark and id
counter never shrink, finished jobs stay finished, and the queue log only
grows. -/
structure StepExt (s s' : SchedState) : Prop where
  min_le : s.min_job_id ≤ s'.min_job_id
  done_mono : ∀ d, isDone s d = true → isDone s' d = true
  cur_eq : s'.cur_job_id = s.cur_job_id
  sent_prefix : s.sent <+: s'.sent

/-- Reflexivity of the extension order. -/
theorem stepExt_refl (s : SchedState) : StepExt s s :=
  ⟨Nat.le_refl _, fun _ h => h, rfl, List.prefix_refl _⟩

/-- Transitivity of the extension order. -/
theorem stepExt_trans {s t u : SchedState} (h1 : StepExt s t) (h2 : StepExt t u) :
    StepExt s u :=
  ⟨Nat.le_trans h1.min_le h2.min_le, fun d hd => h2.done_mono d (h1.done_mono d hd),
   h2.cur_eq.trans h1.cur_eq, h1.sent_prefix.trans h2.sent_prefix⟩

/-- Retained entries and collected ids both come from the input entries. -/
theorem removeDep_ids (jid : Nat) :
    ∀ (entries : List (Nat × List Nat)) (x : Nat),
      ((x ∈ (removeDepEntries jid entries).1.map Prod.fst → x ∈ entries.map Prod.fst) ∧
        (x ∈ (removeDepEntries jid entries).2 → x ∈ entries.map Prod.fst)) := by
  intro entries
  induction entries with
  | nil =>
    exact fun x => ⟨fun h => absurd h (List.not_mem_nil x), fun h => absurd h (List.not_mem_nil x)⟩
  | cons head rest ih =>
    obtain ⟨i, d⟩ := head
    intro x
    have ih' := ih x
    cases hr : removeDepEntries jid rest with
    | mk rest2 woken =>
      rw [hr] at ih'
      simp only [removeDepEntries, hr, List.map_cons]
      by_cases hc : d.contains jid
      · rw [if_pos hc]
        by_cases he : (d.erase jid).isEmpty
        · rw [if_pos he]
          refine ⟨fun hx => List.mem_cons_of_mem _ (ih'.1 hx), fun hx => ?_⟩
          rcases List.mem_cons.mp hx with rfl | hx
          · exact List.mem_cons_self _ _
          · exact List.mem_cons_of_mem _ (ih'.2 hx)
        · rw [if_neg he]
          refine ⟨fun hx => ?_, fun hx => List.mem_cons_of_mem _ (ih'.2 hx)⟩
          simp only [List.map_cons] at hx
          rcases List.mem_cons.mp hx with rfl | hx
          · exact List.mem_cons_self _ _
          · exact List.mem_cons_of_mem _ (ih'.1 hx)
      · rw [if_neg hc]
        by_cases he : d.isEmpty
        · rw [if_pos he]
          exact ⟨fun hx => List.mem_cons_of_mem _ (ih'.1 hx),
            fun hx => List.mem_cons_of_mem _ (ih'.2 hx)⟩
        · rw [if_neg he]
          refine ⟨fun hx => ?_, fun hx => List.mem_cons_of_mem _ (ih'.2 hx)⟩
          simp only [List.map_cons] at hx
          rcases List.mem_cons.mp hx with rfl | hx
          · exact List.mem_cons_self _ _
          · exact List.mem_cons_of_mem _ (ih'.1 hx)

/-- The dependency list every retained or collected entry carries for a
given id, when the input entries are consistent: all entries with that id
hold the same dependency list `D`.  `DD` abbreviates the processed list. -/
theorem removeDep_entry (jid j : Nat) (D : List Nat) :
    ∀ (entries : List (Nat × List Nat)),
      (∀ p ∈ entries, p.1 = j → p.2 = D) → D ≠ [] →
      ((∀ p ∈ (removeDepEntries jid entries).1, p.1 = j →
          p.2 = (if D.contains jid then D.erase jid else D)) ∧
        ((j, D) ∈ entries → (if D.contains jid then D.erase jid else D) ≠ [] →
          (j, if D.contains jid then D.erase jid else D) ∈ (removeDepEntries jid entries).1) ∧
        ((j, D) ∈ entries → (if D.contains jid then D.erase jid else D) = [] →
          j ∈ (removeDepEntries jid entries).2) ∧
        ((if D.contains jid then D.erase jid else D) ≠ [] →
          j ∉ (removeDepEntries jid entries).2)) := by
  intro entries
  induction entries with
  | nil =>
    intro _ _
    exact ⟨fun p hp => absurd hp (List.not_mem_nil p), fun h => absurd h (List.not_mem_nil _),
      fun h => absurd h (List.not_mem_nil _), fun _ hj => absurd hj (List.not_mem_nil _)⟩
  | cons head rest ih =>
    obtain ⟨i, d⟩ := head
    intro huniq hD
    have huniq' : ∀ p ∈ rest, p.1 = j → p.2 = D :=
      fun p hp => huniq p (List.mem_cons_of_mem _ hp)
    have ihr := ih huniq' hD
    cases hr : removeDepEntries jid rest with
    | mk rest2 woken =>
      rw [hr] at ihr
      simp only [removeDepEntries, hr]
      by_cases hij : i = j
      · subst hij
        have hdD : d = D := huniq (i, d) (List.mem_cons_self _ _) rfl
        subst hdD
        by_cases hc : d.contains jid
        · rw [if_pos hc]
          by_cases he : (d.erase jid).isEmpty
          · rw [if_pos he]
            have hdd : (if d.contains jid then d.erase jid else d) = [] := by
              rw [if_pos hc]
              exact List.isEmpty_iff.mp he
            exact ⟨fun p hp hpj => ihr.1 p hp hpj,
              fun _ hne => absurd hdd hne,
              fun _ _ => List.mem_cons_self _ _,
              fun hne => absurd hdd hne⟩
          · rw [if_neg he]
            have hne : d.erase jid ≠ [] := fun h => he (List.isEmpty_iff.mpr h)
            refine ⟨fun p hp hpj => ?_, fun _ _ => ?_, fun _ hdd => ?_, fun _ hj => ?_⟩
            · rcases List.mem_cons.mp hp with rfl | hp
              · rw [if_pos hc]
              · exact ihr.1 p hp hpj
            · rw [if_pos hc]
              exact List.mem_cons_self _ _
            · rw [if_pos hc] at hdd
              exact absurd hdd hne
            · exact (ihr.2.2.2 (by rw [if_pos hc]; exact hne)) hj
        · rw [if_neg hc]
          rw [if_neg hc] at ihr
          have hde : ¬d.isEmpty := by
            intro h
            exact hD (List.isEmpty_iff.mp h)
          rw [if_neg hde]
          refine ⟨fun p hp hpj => ?_, fun _ _ => ?_, fun _ hdd => ?_, fun _ hj => ?_⟩
          · rw [if_neg hc]
            rcases List.mem_cons.mp hp with rfl | hp
            · rfl
            · exact ihr.1 p hp hpj
          · rw [if_neg hc]
            exact List.mem_cons_self _ _
          · rw [if_neg hc] at hdd
            exact absurd hdd hD
          · exact (ihr.2.2.2 hD) hj
      · have hmem : (j, D) ∈ (i, d) :: rest → (j, D) ∈ rest := by
          intro hm
          rcases List.mem_cons.mp hm with hm | hm
          · cases hm
            exact absurd rfl hij
          · exact hm
        by_cases hc : d.contains jid
        · rw [if_pos hc]
          by_cases he : (d.erase jid).isEmpty
          · rw [if_pos he]
            refine ⟨ihr.1, fun hm hne => ihr.2.1 (hmem hm) hne,
              fun hm hdd => List.mem_cons_of_mem _ (ihr.2.2.1 (hmem hm) hdd),
              fun hne hj => ?_⟩
            rcases List.mem_cons.mp hj with rfl | hj
            · exact hij rfl
            · exact (ihr.2.2.2 hne) hj
          · rw [if_neg he]
            refine ⟨fun p hp hpj => ?_, fun hm hne => ?_, fun hm hdd => ihr.2.2.1 (hmem hm) hdd,
              ihr.2.2.2⟩
            · rcases List.mem_cons.mp hp with rfl | hp
              · exact absurd hpj hij
              · exact ihr.1 p hp hpj
            · exact List.mem_cons_of_mem _ (ihr.2.1 (hmem hm) hne)
        · rw [if_neg hc]
          by_cases he : d.isEmpty
          · rw [if_pos he]
            exact ⟨ihr.1, fun hm hne => ihr.2.1 (hmem hm) hne,
              fun hm hdd => ihr.2.2.1 (hmem hm) hdd, ihr.2.2.2⟩
          · rw [if_neg he]
            refine ⟨fun p hp hpj => ?_, fun hm hne => ?_,
              fun hm hdd => ihr.2.2.1 (hmem hm) hdd, ihr.2.2.2⟩
            · rcases List.mem_cons.mp hp with rfl | hp
              · exact absurd hpj hij
              · exact ihr.1 p hp hpj
            · exact List.mem_cons_of_mem _ (ihr.2.1 (hmem hm) hne)

/-- `List.contains` agrees with membership on `Nat`. -/
theorem contains_iff {l : List Nat} {a : Nat} : l.contains a = true ↔ a ∈ l := by
  simp

/-- `is_done` unfolded to a proposition. -/
theorem isDone_iff {s : SchedState} {d : Nat} :
    isDone s d = true ↔ d ≤ s.min_job_id ∨ d ∈ s.buffer := by
  simp [isDone]

/-- Negation of `is_done` unfolded to a proposition. -/
theorem isDone_false_iff {s : SchedState} {d : Nat} :
    isDone s d = false ↔ s.min_job_id < d ∧ d ∉ s.buffer := by
  rw [← Bool.not_eq_true, isDone_iff]
  constructor
  · intro h
    exact ⟨Nat.lt_of_not_le (fun hle => h (Or.inl hle)), fun hb => h (Or.inr hb)⟩
  · rintro ⟨h1, h2⟩ h
    rcases h with h | h
    · exact absurd h (Nat.not_le_of_lt h1)
    · exact h2 h

/-- A dependency survives the per-entry processing of `finish_job` unless it
is the finished id. -/
theorem mem_processed_or (jid : Nat) {D : List Nat} {d : Nat} (h : d ∈ D) :
    d ∈ (if D.contains jid then D.erase jid else D) ∨ d = jid := by
  by_cases hc : D.contains jid = true
  · rw [if_pos hc]
    exact mem_erase_or h
  · rw [if_neg hc]
    exact Or.inl h

/-- If the per-entry processing empties a nonempty dependency list, every
dependency was the finished id. -/
theorem processed_nil_all (jid : Nat) {D : List Nat} (hD : D ≠ [])
    (h : (if D.contains jid then D.erase jid else D) = []) : ∀ d ∈ D, d = jid := by
  by_cases hc : D.contains jid = true
  · rw [if_pos hc] at h
    have hm : jid ∈ D := contains_iff.mp hc
    have hsing : D = [jid] := eq_singleton_of_erase_nil hm h
    intro d hd
    rw [hsing] at hd
    simpa using hd
  · rw [if_neg hc] at h
    exact absurd h hD

/-- `eraseP` of a successful predicate shortens the list by one. -/
theorem length_eraseP_any {p : Nat → Bool} :
    ∀ {l : List Nat}, l.any p = true → (l.eraseP p).length + 1 = l.length := by
  intro l
  induction l with
  | nil => intro h; cases h
  | cons x t ih =>
    intro h
    rw [List.eraseP_cons]
    by_cases hx : p x = true
    · rw [hx]
      simp
    · rw [Bool.not_eq_true] at hx
      rw [hx]
      simp only [cond_false, List.length_cons]
      have ht : t.any p = true := by
        rcases List.any_eq_true.mp h with ⟨b, hb, hpb⟩
        rcases List.mem_cons.mp hb with rfl | hb
        · rw [hx] at hpb; cases hpb
        · exact List.any_eq_true.mpr ⟨b, hb, hpb⟩
      rw [← ih ht]

/-- Over a buffer of ids above the watermark, the promotion step's `eraseP`
is the removal of the single candidate value. -/
theorem eraseP_le_eq_erase (m : Nat) :
    ∀ (l : List Nat), (∀ b ∈ l, m < b) →
      l.eraseP (fun id => id ≤ m + 1) = l.erase (m + 1) := by
  intro l
  induction l with
  | nil => intro _; rfl
  | cons x t ih =>
    intro h
    by_cases hx : x = m + 1
    · subst hx
      simp
    · have hxm : m < x := h x (List.mem_cons_self _ _)
      have hgt : ¬(x ≤ m + 1) := by omega
      have ht := ih (fun b hb => h b (List.mem_cons_of_mem _ hb))
      simp [List.eraseP_cons, List.erase_cons, hgt, hx, ht]

/-- When the fuel covers the buffer length, the promotion loop runs to its
exit condition: every surviving buffer id is above the new watermark plus
one. -/
theorem promoteF_exit : ∀ (f m : Nat) (buf : List Nat), buf.length ≤ f →
    ∀ b ∈ (promoteF f m buf).2, (promoteF f m buf).1 + 1 < b := by
  intro f
  induction f with
  | zero =>
    intro m buf hlen b hb
    have hnil : buf = [] := List.eq_nil_of_length_eq_zero (Nat.le_zero.mp hlen)
    subst hnil
    simp [promoteF] at hb
  | succ f ih =>
    intro m buf hlen b hb
    rw [promoteF_succ] at hb ⊢
    by_cases hany : buf.any (fun id => id ≤ m + 1) = true
    · rw [if_pos hany] at hb ⊢
      refine ih (m + 1) _ ?_ b hb
      have := length_eraseP_any hany
      omega
    · rw [if_neg hany] at hb ⊢
      have hble : ¬b ≤ m + 1 :=
        fun hble => hany (List.any_eq_true.mpr ⟨b, hb, by simpa using hble⟩)
      show m + 1 < b
      omega

/-- Promotion preserves buffer duplicate-freedom. -/
theorem promoteF_nodup : ∀ (f m : Nat) (buf : List Nat), buf.Nodup →
    (promoteF f m buf).2.Nodup := by
  intro f
  induction f with
  | zero => intro m buf h; exact h
  | succ f ih =>
    intro m buf h
    rw [promoteF_succ]
    by_cases hany : buf.any (fun id => id ≤ m + 1) = true
    · rw [if_pos hany]
      exact ih (m + 1) _ (h.sublist (List.eraseP_sublist _))
    · rw [if_neg hany]
      exact h

/-- Over a duplicate-free buffer of ids above the watermark, promotion never
reaches or collects an id that is not in the buffer: the watermark stays
below it and it stays out of the buffer. -/
theorem promoteF_avoid : ∀ (f m : Nat) (buf : List Nat) (y : Nat), y ∉ buf → m < y →
    (∀ b ∈ buf, m < b) → buf.Nodup →
    (promoteF f m buf).1 < y ∧ y ∉ (promoteF f m buf).2 := by
  intro f
  induction f with
  | zero => intro m buf y hy hm _ _; exact ⟨hm, hy⟩
  | succ f ih =>
    intro m buf y hy hm hstrict hnd
    rw [promoteF_succ]
    by_cases hany : buf.any (fun id => id ≤ m + 1) = true
    · rw [if_pos hany]
      obtain ⟨b0, hb0, hb0le⟩ := List.any_eq_true.mp hany
      have hb0le' : b0 ≤ m + 1 := by simpa using hb0le
      have hb0gt : m < b0 := hstrict b0 hb0
      have hb0eq : b0 = m + 1 := by omega
      subst hb0eq
      have hmy : m + 1 ≠ y := fun h => hy (h ▸ hb0)
      rw [eraseP_le_eq_erase m buf hstrict]
      refine ih (m + 1) _ y (fun hmem => hy (List.mem_of_mem_erase hmem)) (by omega) ?_
        (hnd.erase _)
      intro b hb
      have hbmem := List.mem_of_mem_erase hb
      have hbne : b ≠ m + 1 := ((List.Nodup.mem_erase_iff hnd).mp hb).1
      have := hstrict b hbmem
      omega
    · rw [if_neg hany]
      exact ⟨hm, hy⟩

/-- The retained entries' ids and the collected ids are both sublists of the
input entries' ids. -/
theorem removeDep_sublists (jid : Nat) :
    ∀ (l : List (Nat × List Nat)),
      List.Sublist ((removeDepEntries jid l).1.map Prod.fst) (l.map Prod.fst) ∧
        List.Sublist (removeDepEntries jid l).2 (l.map Prod.fst) := by
  intro l
  induction l with
  | nil => exact ⟨List.Sublist.refl _, List.Sublist.refl _⟩
  | cons head rest ih =>
    obtain ⟨i, d⟩ := head
    cases hr : removeDepEntries jid rest with
    | mk rest2 woken =>
      rw [hr] at ih
      simp only [removeDepEntries, hr, List.map_cons]
      by_cases hc : d.contains jid
      · rw [if_pos hc]
        by_cases he : (d.erase jid).isEmpty
        · rw [if_pos he]
          exact ⟨ih.1.cons _, ih.2.cons₂ _⟩
        · rw [if_neg he]
          simp only [List.map_cons]
          exact ⟨ih.1.cons₂ _, ih.2.cons _⟩
      · rw [if_neg hc]
        by_cases he : d.isEmpty
        · rw [if_pos he]
          exact ⟨ih.1.cons _, ih.2.cons _⟩
        · rw [if_neg he]
          simp only [List.map_cons]
          exact ⟨ih.1.cons₂ _, ih.2.cons _⟩

/-- Under duplicate-free entry ids, a collected id is not also retained. -/
theorem removeDep_disjoint (jid : Nat) :
    ∀ (l : List (Nat × List Nat)), (l.map Prod.fst).Nodup →
      ∀ x ∈ (removeDepEntries jid l).2, x ∉ (removeDepEntries jid l).1.map Prod.fst := by
  intro l
  induction l with
  | nil =>
    intro _ x hx
    exact absurd hx (List.not_mem_nil x)
  | cons head rest ih =>
    obtain ⟨i, d⟩ := head
    intro hnd x hx hmem
    rw [List.map_cons, List.nodup_cons] at hnd
    obtain ⟨hi, hnd'⟩ := hnd
    cases hr : removeDepEntries jid rest with
    | mk rest2 woken =>
      have ih' := ih hnd'
      rw [hr] at ih'
      have hsub := removeDep_sublists jid rest
      rw [hr] at hsub
      simp only [removeDepEntries, hr] at hx hmem
      by_cases hc : d.contains jid
      · rw [if_pos hc] at hx hmem
        by_cases he : (d.erase jid).isEmpty
        · rw [if_pos he] at hx hmem
          rcases List.mem_cons.mp hx with rfl | hx
          · exact hi (hsub.1.mem hmem)
          · exact ih' x hx hmem
        · rw [if_neg he] at hx hmem
          simp only [List.map_cons] at hmem
          rcases List.mem_cons.mp hmem with rfl | hmem
          · exact hi (hsub.2.mem hx)
          · exact ih' x hx hmem
      · rw [if_neg hc] at hx hmem
        by_cases he : d.isEmpty
        · rw [if_pos he] at hx hmem
          exact ih' x hx hmem
        · rw [if_neg he] at hx hmem
          simp only [List.map_cons] at hmem
          rcases List.mem_cons.mp hmem with rfl | hmem
          · exact hi (hsub.2.mem hx)
          · exact ih' x hx hmem

/-- Under duplicate-free ids, all entries sharing an id carry its list. -/
theorem nodup_fst_uniq :
    ∀ {l : List (Nat × List Nat)}, (l.map Prod.fst).Nodup →
      ∀ {a : Nat} {D : List Nat}, (a, D) ∈ l → ∀ p ∈ l, p.1 = a → p.2 = D := by
  intro l
  induction l with
  | nil => intro _ a D hm; cases hm
  | cons head rest ih =>
    intro hnd a D hm p hp hpa
    rw [List.map_cons, List.nodup_cons] at hnd
    obtain ⟨hh, hnd'⟩ := hnd
    rcases List.mem_cons.mp hm with heq | hm
    · rcases List.mem_cons.mp hp with hpe | hp
      · rw [hpe, ← heq]
      · exfalso
        apply hh
        rw [← heq]
        exact List.mem_map.mpr ⟨p, hp, by rw [hpa]⟩
    · rcases List.mem_cons.mp hp with hpe | hp
      · exfalso
        apply hh
        rw [← hpe, hpa]
        exact List.mem_map.mpr ⟨(a, D), hm, rfl⟩
      · exact ih hnd' hm p hp hpa

/-- A hibernating or sleeping entry keeps a dependency different from the
finished id. -/
theorem removeDep_keeps_dep (jid a c : Nat) :
    ∀ (entries : List (Nat × List Nat)) (D : List Nat),
      (a, D) ∈ entries → c ∈ D → c ≠ jid →
      ∃ D', (a, D') ∈ (removeDepEntries jid entries).1 ∧ c ∈ D' := by
  intro entries
  induction entries with
  | nil => intro D h; cases h
  | cons head rest ih =>
    obtain ⟨i, d⟩ := head
    intro D hm hc hcj
    cases hr : removeDepEntries jid rest with
    | mk rest2 woken =>
      simp only [removeDepEntries, hr]
      rcases List.mem_cons.mp hm with heq | hm
      · injection heq with h1 h2
        subst h1
        subst h2
        by_cases hcont : D.contains jid
        · rw [if_pos hcont]
          have hcd : c ∈ D.erase jid := (List.mem_erase_of_ne hcj).mpr hc
          have hne : ¬(D.erase jid).isEmpty = true := by
            intro h
            rw [List.isEmpty_iff.mp h] at hcd
            cases hcd
          rw [if_neg hne]
          exact ⟨D.erase jid, List.mem_cons_self _ _, hcd⟩
        · rw [if_neg hcont]
          have hne : ¬D.isEmpty = true := by
            intro h
            rw [List.isEmpty_iff.mp h] at hc
            cases hc
          rw [if_neg hne]
          exact ⟨D, List.mem_cons_self _ _, hc⟩
      · obtain ⟨D', hD', hcD'⟩ := ih D hm hc hcj
        rw [hr] at hD'
        by_cases hcont : d.contains jid
        · rw [if_pos hcont]
          by_cases he : (d.erase jid).isEmpty
          · rw [if_pos he]
            exact ⟨D', hD', hcD'⟩
          · rw [if_neg he]
            exact ⟨D', List.mem_cons_of_mem _ hD', hcD'⟩
        · rw [if_neg hcont]
          by_cases he : d.isEmpty
          · rw [if_pos he]
            exact ⟨D', hD', hcD'⟩
          · rw [if_neg he]
            exact ⟨D', List.mem_cons_of_mem _ hD', hcD'⟩

/-- An entry whose sole dependency is the finished id is collected. -/
theorem removeDep_collects (c a : Nat) :
    ∀ (entries : List (Nat × List Nat)), (a, [c]) ∈ entries →
      a ∈ (removeDepEntries c entries).2 := by
  intro entries
  induction entries with
  | nil => intro h; cases h
  | cons head rest ih =>
    obtain ⟨i, d⟩ := head
    intro hm
    cases hr : removeDepEntries c rest with
    | mk rest2 woken =>
      simp only [removeDepEntries, hr]
      rcases List.mem_cons.mp hm with heq | hm
      · injection heq with h1 h2
        subst h1
        subst h2
        rw [if_pos (by simp : ([c].contains c) = true)]
        rw [if_pos (by simp : (([c].erase c).isEmpty) = true)]
        exact List.mem_cons_self _ _
      · have hrec := ih hm
        rw [hr] at hrec
        by_cases hcont : d.contains c
        · rw [if_pos hcont]
          by_cases he : (d.erase c).isEmpty
          · rw [if_pos he]
            exact List.mem_cons_of_mem _ hrec
          · rw [if_neg he]
            exact hrec
        · rw [if_neg hcont]
          by_cases he : d.isEmpty
          · rw [if_pos he]
            exact hrec
          · rw [if_neg he]
            exact hrec

/-- The state component of `finishPass`, written out. -/
theorem finishPass_fst (s : SchedState) (jid : Nat) :
    (finishPass s jid).1 =
      { s with
          sleeping := (removeDepEntries jid s.sleeping).1,
          hibernating := (removeDepEntries jid s.hibernating).1,
          sent := s.sent ++ (removeDepEntries jid s.sleeping).2,
          min_job_id := (promote s.min_job_id (s.buffer ++ [jid])).1,
          buffer := (promote s.min_job_id (s.buffer ++ [jid])).2 } := rfl

/-- The collected hibernating ids of `finishPass`. -/
theorem finishPass_snd (s : SchedState) (jid : Nat) :
    (finishPass s jid).2 = (removeDepEntries jid s.hibernating).2 := rfl

/-- The notification step changes no scheduling component. -/
theorem notifyStep_state (s : SchedState) (jid : Nat) :
    (notifyStep s jid).min_job_id = s.min_job_id ∧
      (notifyStep s jid).cur_job_id = s.cur_job_id ∧
      (notifyStep s jid).buffer = s.buffer ∧
      (notifyStep s jid).sleeping = s.sleeping ∧
      (notifyStep s jid).hibernating = s.hibernating ∧
      (notifyStep s jid).sent = s.sent := by
  unfold notifyStep
  split <;> exact ⟨rfl, rfl, rfl, rfl, rfl, rfl⟩

/-- The notification step does not change which jobs are done. -/
theorem isDone_notify (s : SchedState) (jid d : Nat) :
    isDone (notifyStep s jid) d = isDone s d := by
  unfold notifyStep isDone
  split <;> rfl

/-- The facts one `finish_job` call (or a cascade of them) establishes,
stated between the pre- and post-state: monotone extension; tracking of a
consistent sleeping entry — it survives with the undone remainder of its
dependencies, or all its dependencies are done; tracking of a hibernating
dependency; shrinkage and duplicate-freedom of the notification-channel
key set; the emitted notifications are appended, each for a registered,
then-discarded channel of a done job; and id bounds are preserved. -/
structure FinishFacts (s s' : SchedState) : Prop where
  ext : StepExt s s'
  sleepQ : ∀ j D, (j, D) ∈ s.sleeping → D ≠ [] →
    (∀ p ∈ s.sleeping, p.1 = j → p.2 = D) → j ∉ s.sent →
    (∃ D', (j, D') ∈ s'.sleeping ∧ D' ≠ [] ∧ (∀ p ∈ s'.sleeping, p.1 = j → p.2 = D') ∧
      j ∉ s'.sent ∧ ∀ d ∈ D, d ∈ D' ∨ isDone s' d = true) ∨
    (∀ d ∈ D, isDone s' d = true)
  hibKeep : ∀ a D c, (a, D) ∈ s.hibernating → c ∈ D →
    (∃ D', (a, D') ∈ s'.hibernating ∧ c ∈ D') ∨ isDone s' c = true
  notifSub : ∀ x ∈ s'.push_notifications, x ∈ s.push_notifications
  notifNodup : s.push_notifications.Nodup → s'.push_notifications.Nodup
  emit : ∃ E, s'.emitted = s.emitted ++ E ∧
    (∀ x ∈ E, x ∈ s.push_notifications ∧ isDone s' x = true) ∧
    (s.push_notifications.Nodup → E.Nodup ∧ ∀ x ∈ E, x ∉ s'.push_notifications)
  bound : (∀ p ∈ s.sleeping, p.1 < s.cur_job_id) → (∀ i ∈ s.sent, i < s.cur_job_id) →
    (∀ p ∈ s'.sleeping, p.1 < s'.cur_job_id) ∧ (∀ i ∈ s'.sent, i < s'.cur_job_id)

/-- Reflexivity of the finish-step facts. -/
theorem finishFacts_refl (s : SchedState) : FinishFacts s s where
  ext := stepExt_refl s
  sleepQ := fun _ D hm hne hu hs => Or.inl ⟨D, hm, hne, hu, hs, fun d hd => Or.inl hd⟩
  hibKeep := fun _ D c hm hc => Or.inl ⟨D, hm, hc⟩
  notifSub := fun _ hx => hx
  notifNodup := fun h => h
  emit := ⟨[], by simp, fun x hx => absurd hx (List.not_mem_nil x),
    fun _ => ⟨List.nodup_nil, fun x hx => absurd hx (List.not_mem_nil x)⟩⟩
  bound := fun h1 h2 => ⟨h1, h2⟩

/-- Transitivity of the finish-step facts. -/
theorem finishFacts_trans {s t u : SchedState} (h1 : FinishFacts s t)
    (h2 : FinishFacts t u) : FinishFacts s u where
  ext := stepExt_trans h1.ext h2.ext
  sleepQ := by
    intro j D hm hne hu hs
    rcases h1.sleepQ j D hm hne hu hs with ⟨D', hm', hne', hu', hs', hrel⟩ | hall
    · rcases h2.sleepQ j D' hm' hne' hu' hs' with ⟨D'', hm2, hne2, hu2, hs2, hrel2⟩ | hall2
      · refine Or.inl ⟨D'', hm2, hne2, hu2, hs2, fun d hd => ?_⟩
        rcases hrel d hd with hd' | hdone
        · exact hrel2 d hd'
        · exact Or.inr (h2.ext.done_mono d hdone)
      · refine Or.inr fun d hd => ?_
        rcases hrel d hd with hd' | hdone
        · exact hall2 d hd'
        · exact h2.ext.done_mono d hdone
    · exact Or.inr fun d hd => h2.ext.done_mono d (hall d hd)
  hibKeep := by
    intro a D c hm hc
    rcases h1.hibKeep a D c hm hc with ⟨D', hm', hc'⟩ | hdone
    · exact h2.hibKeep a D' c hm' hc'
    · exact Or.inr (h2.ext.done_mono c hdone)
  notifSub := fun x hx => h1.notifSub x (h2.notifSub x hx)
  notifNodup := fun hn => h2.notifNodup (h1.notifNodup hn)
  emit := by
    obtain ⟨E1, he1, hc1, hn1⟩ := h1.emit
    obtain ⟨E2, he2, hc2, hn2⟩ := h2.emit
    refine ⟨E1 ++ E2, by rw [he2, he1, List.append_assoc], ?_, ?_⟩
    · intro x hx
      rcases List.mem_append.mp hx with hx | hx
      · exact ⟨(hc1 x hx).1, h2.ext.done_mono x (hc1 x hx).2⟩
      · exact ⟨h1.notifSub x (hc2 x hx).1, (hc2 x hx).2⟩
    · intro hnd
      have hndt := h1.notifNodup hnd
      obtain ⟨hE1nd, hE1out⟩ := hn1 hnd
      obtain ⟨hE2nd, hE2out⟩ := hn2 hndt
      constructor
      · rw [List.nodup_append]
        refine ⟨hE1nd, hE2nd, ?_⟩
        intro x hx1 hx2
        exact hE1out x hx1 ((hc2 x hx2).1)
      · intro x hx
        rcases List.mem_append.mp hx with hx | hx
        · intro hxm
          exact hE1out x hx (h2.notifSub x hxm)
        · exact hE2out x hx
  bound := fun hs hsent => h2.bound (h1.bound hs hsent).1 (h1.bound hs hsent).2

/-- The job just finished is done after the `finishPass` promotion. -/
theorem finishPass_done (s : SchedState) (jid : Nat) :
    isDone (finishPass s jid).1 jid = true := by
  rw [isDone_iff]
  exact promoteF_keeps (s.buffer ++ [jid]).length s.min_job_id (s.buffer ++ [jid]) jid
    (Or.inr (List.mem_append_right _ (List.mem_singleton_self jid)))

/-- The non-recursive pass of `finish_job` establishes the finish facts. -/
theorem pass_facts (s : SchedState) (jid : Nat) : FinishFacts s (finishPass s jid).1 where
  ext := by
    refine ⟨promoteF_min_le _ _ _, ?_, rfl, ⟨(removeDepEntries jid s.sleeping).2, rfl⟩⟩
    intro d hd
    rw [isDone_iff] at hd ⊢
    rcases hd with hd | hd
    · exact promoteF_keeps _ _ _ d (Or.inl hd)
    · exact promoteF_keeps _ _ _ d (Or.inr (List.mem_append_left _ hd))
  sleepQ := by
    intro j D hm hne hu hs
    by_cases hDD : (if D.contains jid then D.erase jid else D) = []
    · refine Or.inr fun d hd => ?_
      have hdj := processed_nil_all jid hne hDD d hd
      rw [hdj]
      exact finishPass_done s jid
    · have hent := removeDep_entry jid j D s.sleeping hu hne
      refine Or.inl ⟨(if D.contains jid then D.erase jid else D), hent.2.1 hm hDD, hDD,
        hent.1, ?_, ?_⟩
      · intro hj
        rcases List.mem_append.mp hj with hj | hj
        · exact hs hj
        · exact hent.2.2.2 hDD hj
      · intro d hd
        rcases mem_processed_or jid hd with hd' | hd'
        · exact Or.inl hd'
        · rw [hd']
          exact Or.inr (finishPass_done s jid)
  hibKeep := by
    intro a D c hm hc
    by_cases hcj : c = jid
    · rw [hcj]
      exact Or.inr (finishPass_done s jid)
    · obtain ⟨D', hD', hcD'⟩ := removeDep_keeps_dep jid a c s.hibernating D hm hc hcj
      exact Or.inl ⟨D', hD', hcD'⟩
  notifSub := fun _ hx => hx
  notifNodup := fun h => h
  emit := ⟨[], (List.append_nil s.emitted).symm, fun x hx => absurd hx (List.not_mem_nil x),
    fun _ => ⟨List.nodup_nil, fun x hx => absurd hx (List.not_mem_nil x)⟩⟩
  bound := by
    intro h1 h2
    constructor
    · intro p hp
      have hmem := (removeDep_ids jid s.sleeping p.1).1 (List.mem_map.mpr ⟨p, hp, rfl⟩)
      obtain ⟨q, hq, hq1⟩ := List.mem_map.mp hmem
      have hlt := h1 q hq
      rw [hq1] at hlt
      exact hlt
    · intro i hi
      rcases List.mem_append.mp hi with hi | hi
      · exact h2 i hi
      · have hmem := (removeDep_ids jid s.sleeping i).2 hi
        obtain ⟨q, hq, hq1⟩ := List.mem_map.mp hmem
        have hlt := h1 q hq
        rw [hq1] at hlt
        exact hlt

/-- The notification step establishes the finish facts when the job is
already done. -/
theorem notify_facts (s : SchedState) (jid : Nat) (hd : isDone s jid = true) :
    FinishFacts s (notifyStep s jid) := by
  unfold notifyStep
  by_cases hc : s.push_notifications.contains jid = true
  · rw [if_pos hc]
    refine ⟨⟨Nat.le_refl _, fun d h => h, rfl, List.prefix_refl _⟩, ?_, ?_, ?_, ?_, ?_, ?_⟩
    · exact fun _ D hm hne hu hs => Or.inl ⟨D, hm, hne, hu, hs, fun d hdm => Or.inl hdm⟩
    · exact fun _ D c hm hcm => Or.inl ⟨D, hm, hcm⟩
    · exact fun x hx => List.mem_of_mem_erase hx
    · exact fun hn => hn.erase _
    · refine ⟨[jid], rfl, ?_, ?_⟩
      · intro x hx
        have hx' := List.mem_singleton.mp hx
        subst hx'
        exact ⟨contains_iff.mp hc, hd⟩
      · intro hn
        refine ⟨List.nodup_singleton _, fun x hx => ?_⟩
        have hx' := List.mem_singleton.mp hx
        subst hx'
        intro hmem
        exact ((List.Nodup.mem_erase_iff hn).mp hmem).1 rfl
    · exact fun h1 h2 => ⟨h1, h2⟩
  · rw [if_neg hc]
    exact finishFacts_refl s

/-- The main induction over the fuelled `finish_job` and its hibernation
cascade: a successful call establishes the finish facts and makes the
finished job (for the cascade: every job of the list) done. -/
theorem finish_main : ∀ fuel : Nat,
    (∀ s jid s', finishJobF fuel s jid = .ok s' →
      FinishFacts s s' ∧ isDone s' jid = true) ∧
    (∀ l s s', finishListGo (fun t j => finishJobF fuel t j) s l = .ok s' →
      FinishFacts s s' ∧ ∀ x ∈ l, isDone s' x = true) := by
  intro fuel
  induction fuel with
  | zero =>
    constructor
    · intro s jid s' h
      exact absurd h (by simp [finishJobF])
    · intro l
      induction l with
      | nil =>
        intro s s' h
        cases h
        exact ⟨finishFacts_refl s, fun x hx => absurd hx (List.not_mem_nil x)⟩
      | cons j rest ihl =>
        intro s s' h
        exact absurd h (by simp [finishListGo, finishJobF])
  | succ fuel ih =>
    have hA : ∀ s jid s', finishJobF (fuel + 1) s jid = .ok s' →
        FinishFacts s s' ∧ isDone s' jid = true := by
      intro s jid s' h
      rw [finishJobF_succ] at h
      by_cases hsleep : s.sleeping.any (fun j => j.1 == jid) = true
      · rw [if_pos hsleep] at h
        exact absurd h (by simp)
      · rw [if_neg hsleep] at h
        cases hgo : finishListGo (fun t j => finishJobF fuel t j) (finishPass s jid).1
            (finishPass s jid).2 with
        | ok s3 =>
          rw [hgo] at h
          simp only [afterCascade] at h
          cases h
          obtain ⟨hF, _⟩ := ih.2 _ _ _ hgo
          have hd3 : isDone s3 jid = true := hF.ext.done_mono jid (finishPass_done s jid)
          refine ⟨finishFacts_trans (finishFacts_trans (pass_facts s jid) hF) (notify_facts s3 jid hd3), ?_⟩
          rw [isDone_notify]
          exact hd3
        | panicked =>
          rw [hgo] at h
          exact absurd h (by simp [afterCascade])
        | nofuel =>
          rw [hgo] at h
          exact absurd h (by simp [afterCascade])
    refine ⟨hA, ?_⟩
    intro l
    induction l with
    | nil =>
      intro s s' h
      cases h
      exact ⟨finishFacts_refl s, fun x hx => absurd hx (List.not_mem_nil x)⟩
    | cons j rest ihl =>
      intro s s' h
      simp only [finishListGo] at h
      cases hj : finishJobF (fuel + 1) s j with
      | ok s2 =>
        rw [hj] at h
        obtain ⟨hF1, hd1⟩ := hA s j s2 hj
        obtain ⟨hF2, hd2⟩ := ihl s2 s' h
        refine ⟨finishFacts_trans hF1 hF2, fun x hx => ?_⟩
        rcases List.mem_cons.mp hx with rfl | hx
        · exact hF2.ext.done_mono x hd1
        · exact hd2 x hx
      | panicked =>
        rw [hj] at h
        exact absurd h (by simp)
      | nofuel =>
        rw [hj] at h
        exact absurd h (by simp)

/-- `finish_job` at its wrapper fuel establishes the finish facts. -/
theorem finishJob_facts {s : SchedState} {jid : Nat} {s' : SchedState}
    (h : finishJob s jid = .ok s') : FinishFacts s s' ∧ isDone s' jid = true :=
  (finish_main _).1 s jid s' h

/-- Well-formedness of a scheduler state: gap-buffer ids are above the
watermark and duplicate-free, hibernating ids are duplicate-free, and no
hibernating job is done. -/
def GoodInv (s : SchedState) : Prop :=
  (∀ b ∈ s.buffer, s.min_job_id < b) ∧ s.buffer.Nodup ∧
    (s.hibernating.map Prod.fst).Nodup ∧ (∀ p ∈ s.hibernating, isDone s p.1 = false)

/-- The `finishPass` promotion of an undone id leaves every other undone id
undone. -/
theorem pass_notDone (s : SchedState) (jid : Nat)
    (hg1 : ∀ b ∈ s.buffer, s.min_job_id < b) (hg2 : s.buffer.Nodup)
    (hjnd : isDone s jid = false) :
    ∀ y, isDone s y = false → y ≠ jid → isDone (finishPass s jid).1 y = false := by
  intro y hy hyj
  obtain ⟨hymin, hybuf⟩ := isDone_false_iff.mp hy
  obtain ⟨hjmin, hjbuf⟩ := isDone_false_iff.mp hjnd
  rw [isDone_false_iff]
  refine promoteF_avoid _ _ _ y ?_ hymin ?_ ?_
  · intro hmem
    rcases List.mem_append.mp hmem with hmem | hmem
    · exact hybuf hmem
    · exact hyj (List.mem_singleton.mp hmem)
  · intro b hb
    rcases List.mem_append.mp hb with hb | hb
    · exact hg1 b hb
    · rw [List.mem_singleton.mp hb]
      exact hjmin
  · refine hg2.append (List.nodup_singleton _) ?_
    intro x hx1 hx2
    rw [List.mem_singleton.mp hx2] at hx1
    exact hjbuf hx1

/-- The notification step preserves well-formedness. -/
theorem goodInv_notify {s : SchedState} {jid : Nat} (hg : GoodInv s) :
    GoodInv (notifyStep s jid) := by
  obtain ⟨hmin, _, hbuf, _, hhib, _⟩ := notifyStep_state s jid
  obtain ⟨hg1, hg2, hg3, hg4⟩ := hg
  refine ⟨?_, ?_, ?_, ?_⟩
  · intro b hb
    rw [hbuf] at hb
    rw [hmin]
    exact hg1 b hb
  · rw [hbuf]
    exact hg2
  · rw [hhib]
    exact hg3
  · intro p hp
    rw [hhib] at hp
    rw [isDone_notify]
    exact hg4 p hp

/-- The pass of `finish_job` on an undone, non-hibernating id preserves
well-formedness, collects a duplicate-free list of undone, no longer
hibernating ids, and only shrinks the hibernating id set. -/
theorem pass_inv (s : SchedState) (jid : Nat) (hg : GoodInv s)
    (hnd : isDone s jid = false) (hnh : jid ∉ s.hibernating.map Prod.fst) :
    GoodInv (finishPass s jid).1 ∧
      (finishPass s jid).2.Nodup ∧
      (∀ x ∈ (finishPass s jid).2, isDone (finishPass s jid).1 x = false ∧
        x ∉ (finishPass s jid).1.hibernating.map Prod.fst) ∧
      (∀ x ∈ (finishPass s jid).1.hibernating.map Prod.fst,
        x ∈ s.hibernating.map Prod.fst) := by
  obtain ⟨hg1, hg2, hg3, hg4⟩ := hg
  obtain ⟨hjmin, hjbuf⟩ := isDone_false_iff.mp hnd
  have hsubs := removeDep_sublists jid s.hibernating
  have hshrink : ∀ x ∈ (finishPass s jid).1.hibernating.map Prod.fst,
      x ∈ s.hibernating.map Prod.fst := fun x hx => hsubs.1.mem hx
  have hnotdone := pass_notDone s jid hg1 hg2 hnd
  have hbufnd : (s.buffer ++ [jid]).Nodup := by
    refine hg2.append (List.nodup_singleton _) ?_
    intro x hx1 hx2
    rw [List.mem_singleton.mp hx2] at hx1
    exact hjbuf hx1
  refine ⟨⟨?_, ?_, ?_, ?_⟩, ?_, ?_, hshrink⟩
  · intro b hb
    have hx := promoteF_exit (s.buffer ++ [jid]).length s.min_job_id (s.buffer ++ [jid])
      (Nat.le_refl _) b hb
    show (promoteF (s.buffer ++ [jid]).length s.min_job_id (s.buffer ++ [jid])).1 < b
    omega
  · exact promoteF_nodup _ _ _ hbufnd
  · exact hg3.sublist hsubs.1
  · intro p hp
    have hpid : p.1 ∈ s.hibernating.map Prod.fst :=
      hshrink p.1 (List.mem_map.mpr ⟨p, hp, rfl⟩)
    obtain ⟨q, hq, hq1⟩ := List.mem_map.mp hpid
    have hqnd := hg4 q hq
    rw [hq1] at hqnd
    have hpj : p.1 ≠ jid := fun h => hnh (h ▸ hpid)
    exact hnotdone p.1 hqnd hpj
  · exact hg3.sublist hsubs.2
  · intro x hx
    have hxid : x ∈ s.hibernating.map Prod.fst := hsubs.2.mem hx
    obtain ⟨q, hq, hq1⟩ := List.mem_map.mp hxid
    have hqnd := hg4 q hq
    rw [hq1] at hqnd
    have hxj : x ≠ jid := fun h => hnh (h ▸ hxid)
    exact ⟨hnotdone x hqnd hxj, removeDep_disjoint jid s.hibernating hg3 x hx⟩

/-- The well-formedness induction over `finish_job` and its cascade: on an
undone, non-hibernating id the call preserves well-formedness, leaves every
other undone non-hibernating id undone, and only shrinks the hibernating
id set. -/
theorem finish_inv : ∀ fuel : Nat,
    (∀ s jid s', finishJobF fuel s jid = .ok s' → GoodInv s → isDone s jid = false →
      jid ∉ s.hibernating.map Prod.fst →
      GoodInv s' ∧
        (∀ y, isDone s y = false → y ≠ jid → y ∉ s.hibernating.map Prod.fst →
          isDone s' y = false) ∧
        (∀ x ∈ s'.hibernating.map Prod.fst, x ∈ s.hibernating.map Prod.fst)) ∧
    (∀ l s s', finishListGo (fun t j => finishJobF fuel t j) s l = .ok s' → GoodInv s →
      l.Nodup → (∀ x ∈ l, isDone s x = false ∧ x ∉ s.hibernating.map Prod.fst) →
      GoodInv s' ∧
        (∀ y, isDone s y = false → y ∉ l → y ∉ s.hibernating.map Prod.fst →
          isDone s' y = false) ∧
        (∀ x ∈ s'.hibernating.map Prod.fst, x ∈ s.hibernating.map Prod.fst)) := by
  intro fuel
  induction fuel with
  | zero =>
    constructor
    · intro s jid s' h
      exact absurd h (by simp [finishJobF])
    · intro l
      induction l with
      | nil =>
        intro s s' h hg _ _
        cases h
        exact ⟨hg, fun y hy _ _ => hy, fun x hx => hx⟩
      | cons j rest ihl =>
        intro s s' h
        exact absurd h (by simp [finishListGo, finishJobF])
  | succ fuel ih =>
    have hA : ∀ s jid s', finishJobF (fuel + 1) s jid = .ok s' → GoodInv s →
        isDone s jid = false → jid ∉ s.hibernating.map Prod.fst →
        GoodInv s' ∧
          (∀ y, isDone s y = false → y ≠ jid → y ∉ s.hibernating.map Prod.fst →
            isDone s' y = false) ∧
          (∀ x ∈ s'.hibernating.map Prod.fst, x ∈ s.hibernating.map Prod.fst) := by
      intro s jid s' h hg hnd hnh
      rw [finishJobF_succ] at h
      by_cases hsleep : s.sleeping.any (fun j => j.1 == jid) = true
      · rw [if_pos hsleep] at h
        exact absurd h (by simp)
      · rw [if_neg hsleep] at h
        cases hgo : finishListGo (fun t j => finishJobF fuel t j) (finishPass s jid).1
            (finishPass s jid).2 with
        | ok s3 =>
          rw [hgo] at h
          simp only [afterCascade] at h
          cases h
          obtain ⟨hgp, hcnd, hcol, hshr⟩ := pass_inv s jid hg hnd hnh
          obtain ⟨hg3, hpres3, hshr3⟩ := ih.2 _ _ _ hgo hgp hcnd hcol
          refine ⟨goodInv_notify hg3, ?_, ?_⟩
          · intro y hy hyj hyh
            rw [isDone_notify]
            refine hpres3 y (pass_notDone s jid hg.1 hg.2.1 hnd y hy hyj) ?_ ?_
            · intro hyc
              exact hyh ((removeDep_sublists jid s.hibernating).2.mem hyc)
            · intro hyp
              exact hyh ((removeDep_sublists jid s.hibernating).1.mem hyp)
          · intro x hx
            rw [(notifyStep_state s3 jid).2.2.2.2.1] at hx
            exact hshr x (hshr3 x hx)
        | panicked =>
          rw [hgo] at h
          exact absurd h (by simp [afterCascade])
        | nofuel =>
          rw [hgo] at h
          exact absurd h (by simp [afterCascade])
    refine ⟨hA, ?_⟩
    intro l
    induction l with
    | nil =>
      intro s s' h hg _ _
      cases h
      exact ⟨hg, fun y hy _ _ => hy, fun x hx => hx⟩
    | cons j rest ihl =>
      intro s s' h hg hlnd hall
      simp only [finishListGo] at h
      cases hj : finishJobF (fuel + 1) s j with
      | ok s2 =>
        rw [hj] at h
        obtain ⟨hjnd, hjnh⟩ := hall j (List.mem_cons_self _ _)
        obtain ⟨hg2, hpres2, hshr2⟩ := hA s j s2 hj hg hjnd hjnh
        rw [List.nodup_cons] at hlnd
        obtain ⟨hjrest, hrestnd⟩ := hlnd
        have hall2 : ∀ x ∈ rest, isDone s2 x = false ∧
            x ∉ s2.hibernating.map Prod.fst := by
          intro x hx
          obtain ⟨hxnd, hxnh⟩ := hall x (List.mem_cons_of_mem _ hx)
          refine ⟨hpres2 x hxnd (fun hxj => hjrest (hxj ▸ hx)) hxnh, ?_⟩
          intro hxm
          exact hxnh (hshr2 x hxm)
        obtain ⟨hg', hpres', hshr'⟩ := ihl s2 s' h hg2 hrestnd hall2
        refine ⟨hg', ?_, fun x hx => hshr2 x (hshr' x hx)⟩
        intro y hy hyl hyh
        have hy2 : isDone s2 y = false :=
          hpres2 y hy (fun hyj => hyl (by rw [hyj]; exact List.mem_cons_self _ _)) hyh
        refine hpres' y hy2 (fun hyr => hyl (List.mem_cons_of_mem _ hyr)) ?_
        intro hym
        exact hyh (hshr2 y hym)
      | panicked =>
        rw [hj] at h
        exact absurd h (by simp)
      | nofuel =>
        rw [hj] at h
        exact absurd h (by simp)

/-- `finish_job` at its wrapper fuel preserves well-formedness. -/
theorem finishJob_inv {s : SchedState} {jid : Nat} {s' : SchedState}
    (h : finishJob s jid = .ok s') (hg : GoodInv s) (hnd : isDone s jid = false)
    (hnh : jid ∉ s.hibernating.map Prod.fst) :
    GoodInv s' ∧ (∀ y, isDone s y = false → y ≠ jid →
      y ∉ s.hibernating.map Prod.fst → isDone s' y = false) ∧
      (∀ x ∈ s'.hibernating.map Prod.fst, x ∈ s.hibernating.map Prod.fst) :=
  (finish_inv _).1 s jid s' h hg hnd hnh

/-- The resolved form of `new_job` when no dependencies remain. -/
theorem newJob_empty (s : SchedState) (deps : List Nat) (h : filterDeps s deps = []) :
    newJob s deps =
      ({ s with cur_job_id := s.cur_job_id + 1, sent := s.sent ++ [s.cur_job_id] },
        s.cur_job_id) := by
  simp [newJob, h]

/-- The resolved form of `new_job` when dependencies remain. -/
theorem newJob_nonempty (s : SchedState) (deps : List Nat)
    (h : filterDeps s deps ≠ []) :
    newJob s deps =
      ({ s with
          cur_job_id := s.cur_job_id + 1,
          sleeping := s.sleeping ++ [(s.cur_job_id, filterDeps s deps)] },
        s.cur_job_id) := by
  have h2 : (filterDeps s deps).isEmpty = false := by
    cases hi : (filterDeps s deps).isEmpty
    · rfl
    · exact absurd (List.isEmpty_iff.mp hi) h
  simp [newJob, h2]

/-- The two successful outcomes of `hibernate`: record the job as
hibernating, or finish it immediately; either way it was not already
hibernating. -/
theorem hibernate_cases {s : SchedState} {jid : Nat} {deps : List Nat} {s' : SchedState}
    (h : hibernate s jid deps = .ok s') :
    (filterDeps s deps ≠ [] ∧
      s' = { s with hibernating := s.hibernating ++ [(jid, filterDeps s deps)] } ∧
      s.hibernating.any (fun p => p.1 == jid) = false) ∨
    (filterDeps s deps = [] ∧ finishJob s jid = .ok s' ∧
      s.hibernating.any (fun p => p.1 == jid) = false) := by
  simp only [hibernate] at h
  by_cases h1 : s.hibernating.any (fun p => p.1 == jid) = true
  · rw [if_pos h1] at h
    exact absurd h (by simp)
  · rw [if_neg h1] at h
    rw [Bool.not_eq_true] at h1
    by_cases h2 : s.sleeping.any (fun p => p.1 == jid) = true
    · rw [if_pos h2] at h
      exact absurd h (by simp)
    · rw [if_neg h2] at h
      by_cases h3 : (filterDeps s deps).isEmpty = true
      · rw [if_pos h3] at h
        exact Or.inr ⟨List.isEmpty_iff.mp h3, h, h1⟩
      · rw [if_neg h3] at h
        cases h
        exact Or.inl ⟨fun hne => h3 (List.isEmpty_iff.mpr hne), rfl, h1⟩

/-- A false `any`-of-id check means the id is not among the entry ids. -/
theorem not_mem_fst_of_any_false {l : List (Nat × List Nat)} {jid : Nat}
    (h : l.any (fun p => p.1 == jid) = false) : jid ∉ l.map Prod.fst := by
  intro hmem
  obtain ⟨q, hq, hq1⟩ := List.mem_map.mp hmem
  rw [← Bool.not_eq_true, List.any_eq_true] at h
  exact h ⟨q, hq, beq_iff_eq.mpr hq1⟩

/-- All sleeping and sent ids are below the id counter. -/
def IdsBound (s : SchedState) : Prop :=
  (∀ p ∈ s.sleeping, p.1 < s.cur_job_id) ∧ (∀ i ∈ s.sent, i < s.cur_job_id)

/-- The deferred-queue invariant for a job `j` submitted sleeping on
dependency list `D`: either `j` is still sleeping — on a consistent,
nonempty remainder whose complement in `D` is done — and not yet sent, or
every dependency in `D` is done. -/
def SleepInv (j : Nat) (D : List Nat) (s : SchedState) : Prop :=
  (∃ D', (j, D') ∈ s.sleeping ∧ D' ≠ [] ∧ (∀ p ∈ s.sleeping, p.1 = j → p.2 = D') ∧
    j ∉ s.sent ∧ ∀ d ∈ D, d ∈ D' ∨ isDone s d = true) ∨
  (∀ d ∈ D, isDone s d = true)

/-- The finish facts propagate the deferred-queue invariant. -/
theorem c2_of_facts {s s' : SchedState} {j : Nat} {D : List Nat} (hF : FinishFacts s s')
    (hb : IdsBound s) (hj : j < s.cur_job_id) (hq : SleepInv j D s) :
    IdsBound s' ∧ j < s'.cur_job_id ∧ SleepInv j D s' := by
  refine ⟨⟨(hF.bound hb.1 hb.2).1, (hF.bound hb.1 hb.2).2⟩, ?_, ?_⟩
  · rw [hF.ext.cur_eq]
    exact hj
  · rcases hq with ⟨D', hm, hne, hu, hs, hrel⟩ | hall
    · rcases hF.sleepQ j D' hm hne hu hs with ⟨D'', hm2, hne2, hu2, hs2, hrel2⟩ | hall2
      · refine Or.inl ⟨D'', hm2, hne2, hu2, hs2, fun d hd => ?_⟩
        rcases hrel d hd with h1 | h1
        · exact hrel2 d h1
        · exact Or.inr (hF.ext.done_mono d h1)
      · refine Or.inr fun d hd => ?_
        rcases hrel d hd with h1 | h1
        · exact hall2 d h1
        · exact hF.ext.done_mono d h1
    · exact Or.inr fun d hd => hF.ext.done_mono d (hall d hd)

/-- One API event preserves the id bounds and the deferred-queue
invariant. -/
theorem applyEvent_c2 {j : Nat} {D : List Nat} :
    ∀ (e : SEvent) (s s' : SchedState), applyEvent s e = .ok s' →
      IdsBound s → j < s.cur_job_id → SleepInv j D s →
      IdsBound s' ∧ j < s'.cur_job_id ∧ SleepInv j D s' := by
  intro e s s' h hb hj hq
  cases e with
  | submit deps =>
    simp only [applyEvent] at h
    cases h
    by_cases hrem : filterDeps s deps = []
    · rw [newJob_empty s deps hrem]
      refine ⟨⟨?_, ?_⟩, Nat.lt_trans hj (Nat.lt_succ_self _), ?_⟩
      · intro p hp
        exact Nat.lt_trans (hb.1 p hp) (Nat.lt_succ_self _)
      · intro i hi
        rcases List.mem_append.mp hi with hi | hi
        · exact Nat.lt_trans (hb.2 i hi) (Nat.lt_succ_self _)
        · rw [List.mem_singleton.mp hi]
          exact Nat.lt_succ_self _
      · rcases hq with ⟨D', hm, hne, hu, hs, hrel⟩ | hall
        · refine Or.inl ⟨D', hm, hne, hu, ?_, hrel⟩
          intro hjs
          rcases List.mem_append.mp hjs with hjs | hjs
          · exact hs hjs
          · rw [List.mem_singleton.mp hjs] at hj
            exact Nat.lt_irrefl _ hj
        · exact Or.inr hall
    · rw [newJob_nonempty s deps hrem]
      refine ⟨⟨?_, ?_⟩, Nat.lt_trans hj (Nat.lt_succ_self _), ?_⟩
      · intro p hp
        rcases List.mem_append.mp hp with hp | hp
        · exact Nat.lt_trans (hb.1 p hp) (Nat.lt_succ_self _)
        · rw [List.mem_singleton.mp hp]
          exact Nat.lt_succ_self _
      · intro i hi
        exact Nat.lt_trans (hb.2 i hi) (Nat.lt_succ_self _)
      · rcases hq with ⟨D', hm, hne, hu, hs, hrel⟩ | hall
        · refine Or.inl ⟨D', List.mem_append_left _ hm, hne, ?_, hs, hrel⟩
          intro p hp hpj
          rcases List.mem_append.mp hp with hp | hp
          · exact hu p hp hpj
          · exfalso
            rw [List.mem_singleton.mp hp] at hpj
            have hcj : s.cur_job_id = j := hpj
            omega
        · exact Or.inr hall
  | waitFor jid =>
    simp only [applyEvent] at h
    cases h
    unfold waitForJob
    by_cases h1 : isDone s jid = true
    · rw [if_pos h1]
      exact ⟨hb, hj, hq⟩
    · rw [if_neg h1]
      by_cases h2 : s.push_notifications.contains jid = true
      · rw [if_pos h2]
        exact ⟨hb, hj, hq⟩
      · rw [if_neg h2]
        exact ⟨hb, hj, hq⟩
  | hib jid deps =>
    simp only [applyEvent] at h
    rcases hibernate_cases h with ⟨hne, rfl, _⟩ | ⟨_, hfin, _⟩
    · exact ⟨⟨fun p hp => hb.1 p hp, fun i hi => hb.2 i hi⟩, hj, hq⟩
    · exact c2_of_facts (finishJob_facts hfin).1 hb hj hq
  | finish jid =>
    simp only [applyEvent] at h
    exact c2_of_facts (finishJob_facts h).1 hb hj hq

/-- A whole trace preserves the id bounds and deferred-queue invariant. -/
theorem trace_c2 {j : Nat} {D : List Nat} :
    ∀ (t : List SEvent) (s s' : SchedState), runTrace s t = .ok s' →
      IdsBound s → j < s.cur_job_id → SleepInv j D s →
      IdsBound s' ∧ j < s'.cur_job_id ∧ SleepInv j D s' := by
  intro t
  induction t with
  | nil =>
    intro s s' h hb hj hq
    cases h
    exact ⟨hb, hj, hq⟩
  | cons e rest ih =>
    intro s s' h hb hj hq
    simp only [runTrace] at h
    cases he : applyEvent s e with
    | ok s2 =>
      rw [he] at h
      obtain ⟨hb2, hj2, hq2⟩ := applyEvent_c2 e s s2 he hb hj hq
      exact ih s2 s' h hb2 hj2 hq2
    | panicked =>
      rw [he] at h
      exact absurd h (by simp)
    | nofuel =>
      rw [he] at h
      exact absurd h (by simp)

/-- The at-most-once notification invariant: the emitted log is
duplicate-free and holds only done jobs, the registered channel keys are
duplicate-free, and no registered key was already notified. -/
def EmitInv (s : SchedState) : Prop :=
  s.emitted.Nodup ∧ s.push_notifications.Nodup ∧
    (∀ x ∈ s.emitted, isDone s x = true) ∧
    (∀ x ∈ s.push_notifications, x ∉ s.emitted)

/-- The finish facts propagate the notification invariant. -/
theorem emit_of_facts {s s' : SchedState} (hF : FinishFacts s s') (he : EmitInv s) :
    EmitInv s' := by
  obtain ⟨h1, h2, h3, h4⟩ := he
  obtain ⟨E, heq, hcond, hnd⟩ := hF.emit
  obtain ⟨hEnd, hEout⟩ := hnd h2
  refine ⟨?_, hF.notifNodup h2, ?_, ?_⟩
  · rw [heq, List.nodup_append]
    refine ⟨h1, hEnd, ?_⟩
    intro x hx hxE
    exact h4 x (hcond x hxE).1 hx
  · intro x hx
    rw [heq] at hx
    rcases List.mem_append.mp hx with hx | hx
    · exact hF.ext.done_mono x (h3 x hx)
    · exact (hcond x hx).2
  · intro x hx hxe
    rw [heq] at hxe
    rcases List.mem_append.mp hxe with hxe | hxe
    · exact h4 x (hF.notifSub x hx) hxe
    · exact hEout x hxe hx

/-- One API event preserves the notification invariant. -/
theorem applyEvent_c4 :
    ∀ (e : SEvent) (s s' : SchedState), applyEvent s e = .ok s' → EmitInv s →
      EmitInv s' := by
  intro e s s' h hi
  cases e with
  | submit deps =>
    simp only [applyEvent] at h
    cases h
    by_cases hrem : filterDeps s deps = []
    · rw [newJob_empty s deps hrem]
      exact hi
    · rw [newJob_nonempty s deps hrem]
      exact hi
  | waitFor jid =>
    simp only [applyEvent] at h
    cases h
    unfold waitForJob
    by_cases h1 : isDone s jid = true
    · rw [if_pos h1]
      exact hi
    · rw [if_neg h1]
      by_cases h2 : s.push_notifications.contains jid = true
      · rw [if_pos h2]
        exact hi
      · rw [if_neg h2]
        obtain ⟨hi1, hi2, hi3, hi4⟩ := hi
        refine ⟨hi1, ?_, fun x hx => hi3 x hx, ?_⟩
        · refine hi2.append (List.nodup_singleton _) ?_
          intro x hx1 hx2
          rw [List.mem_singleton.mp hx2] at hx1
          exact h2 (contains_iff.mpr hx1)
        · intro x hx hxe
          rcases List.mem_append.mp hx with hx | hx
          · exact hi4 x hx hxe
          · rw [List.mem_singleton.mp hx] at hxe
            exact h1 (hi3 jid hxe)
  | hib jid deps =>
    simp only [applyEvent] at h
    rcases hibernate_cases h with ⟨hne, rfl, _⟩ | ⟨_, hfin, _⟩
    · exact hi
    · exact emit_of_facts (finishJob_facts hfin).1 hi
  | finish jid =>
    simp only [applyEvent] at h
    exact emit_of_facts (finishJob_facts h).1 hi

/-- A whole trace preserves the notification invariant. -/
theorem trace_c4 :
    ∀ (t : List SEvent) (s s' : SchedState), runTrace s t = .ok s' → EmitInv s →
      EmitInv s' := by
  intro t
  induction t with
  | nil =>
    intro s s' h hi
    cases h
    exact hi
  | cons e rest ih =>
    intro s s' h hi
    simp only [runTrace] at h
    cases he : applyEvent s e with
    | ok s2 =>
      rw [he] at h
      exact ih s2 s' h (applyEvent_c4 e s s2 he hi)
    | panicked =>
      rw [he] at h
      exact absurd h (by simp)
    | nofuel =>
      rw [he] at h
      exact absurd h (by simp)

/-- A hibernating entry for `a` still lists `c` as a pending dependency. -/
def HibPend (a c : Nat) (s : SchedState) : Prop :=
  ∃ D, (a, D) ∈ s.hibernating ∧ c ∈ D

/-- The legitimacy condition on one event in a state: a `finish` targets a
job that is neither done nor hibernating (a worker finishes its own,
previously dequeued job exactly once; hibernating jobs are finished only by
the internal cascade), and a `hibernate` targets an undone job. -/
def legitCond (s : SchedState) : SEvent → Bool
  | .finish j => !isDone s j && !(s.hibernating.map Prod.fst).contains j
  | .hib j _ => !isDone s j
  | _ => true

/-- Legitimacy of every event of a trace, each judged in its own state. -/
def legitFrom : SchedState → List SEvent → Bool
  | _, [] => true
  | s, e :: rest =>
    legitCond s e &&
      match applyEvent s e with
      | .ok s2 => legitFrom s2 rest
      | _ => true

/-- One legitimate API event preserves well-formedness and the pending
hibernation disjunction. -/
theorem applyEvent_c3 {a c : Nat} :
    ∀ (e : SEvent) (s s' : SchedState), applyEvent s e = .ok s' →
      legitCond s e = true → GoodInv s → (HibPend a c s ∨ isDone s c = true) →
      GoodInv s' ∧ (HibPend a c s' ∨ isDone s' c = true) := by
  intro e s s' h hl hg hp
  cases e with
  | submit deps =>
    simp only [applyEvent] at h
    cases h
    by_cases hrem : filterDeps s deps = []
    · rw [newJob_empty s deps hrem]
      exact ⟨hg, hp⟩
    · rw [newJob_nonempty s deps hrem]
      exact ⟨hg, hp⟩
  | waitFor jid =>
    simp only [applyEvent] at h
    cases h
    unfold waitForJob
    by_cases h1 : isDone s jid = true
    · rw [if_pos h1]
      exact ⟨hg, hp⟩
    · rw [if_neg h1]
      by_cases h2 : s.push_notifications.contains jid = true
      · rw [if_pos h2]
        exact ⟨hg, hp⟩
      · rw [if_neg h2]
        exact ⟨hg, hp⟩
  | hib jid deps =>
    simp only [applyEvent] at h
    simp only [legitCond] at hl
    have hnd : isDone s jid = false := by simpa using hl
    rcases hibernate_cases h with ⟨hne, rfl, hnotin⟩ | ⟨_, hfin, hnotin⟩
    · have hjnot := not_mem_fst_of_any_false hnotin
      obtain ⟨hg1, hg2, hg3, hg4⟩ := hg
      refine ⟨⟨fun b hb => hg1 b hb, hg2, ?_, ?_⟩, ?_⟩
      · rw [List.map_append]
        refine hg3.append (List.nodup_singleton _) ?_
        intro x hx1 hx2
        rw [List.mem_singleton.mp hx2] at hx1
        exact hjnot hx1
      · intro p hp2
        rcases List.mem_append.mp hp2 with hp2 | hp2
        · exact hg4 p hp2
        · rw [List.mem_singleton.mp hp2]
          exact hnd
      · rcases hp with ⟨D, hD, hc⟩ | hd
        · exact Or.inl ⟨D, List.mem_append_left _ hD, hc⟩
        · exact Or.inr hd
    · have hjnot := not_mem_fst_of_any_false hnotin
      obtain ⟨hg', _, _⟩ := finishJob_inv hfin hg hnd hjnot
      obtain ⟨hF, _⟩ := finishJob_facts hfin
      refine ⟨hg', ?_⟩
      rcases hp with ⟨D, hD, hc⟩ | hd
      · rcases hF.hibKeep a D c hD hc with ⟨D', hD', hc'⟩ | hdone
        · exact Or.inl ⟨D', hD', hc'⟩
        · exact Or.inr hdone
      · exact Or.inr (hF.ext.done_mono c hd)
  | finish jid =>
    simp only [applyEvent] at h
    simp only [legitCond] at hl
    rw [Bool.and_eq_true] at hl
    have hnd : isDone s jid = false := by simpa using hl.1
    have hjnot : jid ∉ s.hibernating.map Prod.fst := by
      intro hmem
      have hcm := contains_iff.mpr hmem
      have h2 := hl.2
      rw [hcm] at h2
      simp at h2
    obtain ⟨hg', _, _⟩ := finishJob_inv h hg hnd hjnot
    obtain ⟨hF, _⟩ := finishJob_facts h
    refine ⟨hg', ?_⟩
    rcases hp with ⟨D, hD, hc⟩ | hd
    · rcases hF.hibKeep a D c hD hc with ⟨D', hD', hc'⟩ | hdone
      · exact Or.inl ⟨D', hD', hc'⟩
      · exact Or.inr hdone
    · exact Or.inr (hF.ext.done_mono c hd)

/-- A legitimate trace preserves well-formedness and the pending
hibernation disjunction. -/
theorem trace_c3 {a c : Nat} :
    ∀ (t : List SEvent) (s s' : SchedState), runTrace s t = .ok s' →
      legitFrom s t = true → GoodInv s → (HibPend a c s ∨ isDone s c = true) →
      GoodInv s' ∧ (HibPend a c s' ∨ isDone s' c = true) := by
  intro t
  induction t with
  | nil =>
    intro s s' h _ hg hp
    cases h
    exact ⟨hg, hp⟩
  | cons e rest ih =>
    intro s s' h hleg hg hp
    simp only [runTrace] at h
    cases he : applyEvent s e with
    | ok s2 =>
      rw [he] at h
      simp only [legitFrom, he] at hleg
      rw [Bool.and_eq_true] at hleg
      obtain ⟨hg2, hp2⟩ := applyEvent_c3 e s s2 he hleg.1 hg hp
      exact ih s2 s' h hleg.2 hg2 hp2
    | panicked =>
      rw [he] at h
      exact absurd h (by simp)
    | nofuel =>
      rw [he] at h
      exact absurd h (by simp)

end SchedLemmas

namespace LoaderLemmas

open Compiler

/-- Everything the loader added between two context states carries at least
accessibility `a`. -/
def AccAdded (ctx ctx' : IRContext) (a : Nat) : Prop :=
  (∀ g ∈ ctx'.functions, g ∈ ctx.functions ∨ a ≤ g.accessability) ∧
  (∀ st ∈ ctx'.structs, st ∈ ctx.structs ∨ a ≤ st.accessability)

/-- Reflexivity: nothing added. -/
theorem accAdded_refl (ctx : IRContext) (a : Nat) : AccAdded ctx ctx a :=
  ⟨fun _ hg => Or.inl hg, fun _ hst => Or.inl hst⟩

/-- Transitivity of the addition bound. -/
theorem accAdded_trans {c1 c2 c3 : IRContext} {a : Nat} (h1 : AccAdded c1 c2 a)
    (h2 : AccAdded c2 c3 a) : AccAdded c1 c3 a := by
  constructor
  · intro g hg
    rcases h2.1 g hg with hg2 | hg2
    · exact h1.1 g hg2
    · exact Or.inr hg2
  · intro st hst
    rcases h2.2 st hst with hs2 | hs2
    · exact h1.2 st hs2
    · exact Or.inr hs2

/-- The addition bound is antitone in the bound. -/
theorem AccAdded.weaken {c1 c2 : IRContext} {a b : Nat} (hab : a ≤ b)
    (h : AccAdded c1 c2 b) : AccAdded c1 c2 a := by
  constructor
  · intro g hg
    rcases h.1 g hg with hg2 | hg2
    · exact Or.inl hg2
    · exact Or.inr (Nat.le_trans hab hg2)
  · intro st hst
    rcases h.2 st hst with hs2 | hs2
    · exact Or.inl hs2
    · exact Or.inr (Nat.le_trans hab hs2)

/-- `load_struct` adds one struct at exactly the passed accessibility. -/
theorem loadStruct_acc {fuel : Nat} {ctx : IRContext} {path : List String}
    {st : StructNode} {acc : Nat} {ctx' : IRContext}
    (h : loadStruct fuel ctx path st acc = .ok ctx') : AccAdded ctx ctx' acc := by
  simp only [loadStruct] at h
  cases haf : addFields fuel [] st.fields.arguments with
  | ok fields =>
    rw [haf] at h
    cases h
    constructor
    · intro g hg
      exact Or.inl hg
    · intro s2 hs2
      rcases List.mem_append.mp hs2 with hs2 | hs2
      · exact Or.inl hs2
      · rw [List.mem_singleton.mp hs2]
        exact Or.inr (Nat.le_refl acc)
  | err e =>
    rw [haf] at h
    exact absurd h (by simp)
  | hang =>
    rw [haf] at h
    exact absurd h (by simp)

/-- The struct loop adds structs at exactly the passed accessibility. -/
theorem loadStructs_acc {fuel : Nat} {path : List String} {acc : Nat} :
    ∀ {sts : List StructNode} {ctx ctx' : IRContext},
      loadStructs fuel ctx path sts acc = .ok ctx' → AccAdded ctx ctx' acc := by
  intro sts
  induction sts with
  | nil =>
    intro ctx ctx' h
    cases h
    exact accAdded_refl _ _
  | cons st rest ih =>
    intro ctx ctx' h
    simp only [loadStructs] at h
    cases hs : loadStruct fuel ctx path st acc with
    | ok c2 =>
      rw [hs] at h
      exact accAdded_trans (loadStruct_acc hs) (ih h)
    | err e =>
      rw [hs] at h
      exact absurd h (by simp)
    | hang =>
      rw [hs] at h
      exact absurd h (by simp)

/-- A sequential load whose every step respects the addition bound
respects it as a whole. -/
theorem loadSeq_acc {α : Type} {f : IRContext → α → CRes IRContext} {a : Nat}
    (hf : ∀ ctx x ctx'', f ctx x = .ok ctx'' → AccAdded ctx ctx'' a) :
    ∀ {l : List α} {ctx ctx' : IRContext},
      loadSeq f ctx l = .ok ctx' → AccAdded ctx ctx' a := by
  intro l
  induction l with
  | nil =>
    intro ctx ctx' h
    cases h
    exact accAdded_refl _ _
  | cons x rest ih =>
    intro ctx ctx' h
    simp only [loadSeq] at h
    cases hx : f ctx x with
    | ok c2 =>
      rw [hx] at h
      exact accAdded_trans (hf ctx x c2 hx) (ih h)
    | err e =>
      rw [hx] at h
      exact absurd h (by simp)
    | hang =>
      rw [hx] at h
      exact absurd h (by simp)

/-- The loader induction: under `acc ≤ depth`, loading a function or module
adds only elements of accessibility at least the element's own — inherited
`acc` when exported, the new depth otherwise — and a loaded function
records itself at exactly that value. -/
theorem load_acc : ∀ (fuel : Nat) (reg : List FuncMeta) (ctx : IRContext)
    (path : List String) (depth acc : Nat), acc ≤ depth →
    (∀ (f : FunctionNode) (ctx' : IRContext),
      loadFunction fuel reg ctx path f depth acc = .ok ctx' →
      AccAdded ctx ctx' (if f.exported then acc else depth + 1) ∧
      ∃ fn ∈ ctx'.functions, fn.ident_path = path ++ [f.name] ∧
        fn.accessability = (if f.exported then acc else depth + 1)) ∧
    (∀ (m : ModuleNode) (ctx' : IRContext),
      loadModule fuel reg ctx path m depth acc = .ok ctx' →
      AccAdded ctx ctx' (if m.exported then acc else depth + 1)) := by
  intro fuel
  induction fuel with
  | zero =>
    intro reg ctx path depth acc hacc
    constructor
    · intro f ctx' h
      exact absurd h (by simp [loadFunction])
    · intro m ctx' h
      exact absurd h (by simp [loadModule])
  | succ fuel ih =>
    intro reg ctx path depth acc hacc
    have hacc2 : ∀ e : Bool, (if e then acc else depth + 1) ≤ depth + 1 := by
      intro e
      cases e
      · simp
      · simp
        omega
    have hmono : ∀ A : Nat, A ≤ depth + 1 → ∀ e : Bool,
        A ≤ (if e then A else depth + 1 + 1) := by
      intro A hA e
      cases e
      · simp
        omega
      · simp
    constructor
    · intro f ctx' h
      simp only [loadFunction] at h
      split at h
      · rename_i c2 hseq
        split at h
        · rename_i c3 hst
          split at h
          · rename_i inputs hin
            split at h
            · rename_i outputs hout
              split at h
              · rename_i statements hps
                cases h
                have h1 : AccAdded ctx c2 (if f.exported then acc else depth + 1) := by
                  refine loadSeq_acc ?_ hseq
                  intro cx g cx' hg
                  have hrec := ((ih reg cx (path ++ [f.name]) (depth + 1)
                    (if f.exported then acc else depth + 1) (hacc2 f.exported)).1
                    g cx' hg).1
                  exact AccAdded.weaken (hmono _ (hacc2 f.exported) g.exported) hrec
                have h2 : AccAdded c2 c3 (if f.exported then acc else depth + 1) :=
                  loadStructs_acc hst
                refine ⟨accAdded_trans (accAdded_trans h1 h2) ⟨?_, fun st hst2 => Or.inl hst2⟩, ?_⟩
                · intro g hg
                  rcases List.mem_append.mp hg with hg | hg
                  · exact Or.inl hg
                  · rw [List.mem_singleton.mp hg]
                    exact Or.inr (Nat.le_refl _)
                · exact ⟨_, List.mem_append_right _ (List.mem_singleton_self _), rfl, rfl⟩
              · simp at h
              · simp at h
            · simp at h
            · simp at h
          · simp at h
          · simp at h
        · simp at h
        · simp at h
      · simp at h
      · simp at h
    · intro m ctx' h
      simp only [loadModule] at h
      split at h
      · rename_i c2 hseq
        split at h
        · rename_i c3 hfn
          have h1 : AccAdded ctx c2 (if m.exported then acc else depth + 1) := by
            refine loadSeq_acc ?_ hseq
            intro cx n cx' hn
            have hrec := (ih reg cx (path ++ [m.name]) (depth + 1)
              (if m.exported then acc else depth + 1) (hacc2 m.exported)).2 n cx' hn
            exact AccAdded.weaken (hmono _ (hacc2 m.exported) n.exported) hrec
          have h2 : AccAdded c2 c3 (if m.exported then acc else depth + 1) := by
            refine loadSeq_acc ?_ hfn
            intro cx g cx' hg
            have hrec := ((ih reg cx (path ++ [m.name]) (depth + 1)
              (if m.exported then acc else depth + 1) (hacc2 m.exported)).1 g cx' hg).1
            exact AccAdded.weaken (hmono _ (hacc2 m.exported) g.exported) hrec
          exact accAdded_trans (accAdded_trans h1 h2) (loadStructs_acc h)
        · simp at h
        · simp at h
      · simp at h
      · simp at h

end LoaderLemmas

namespace Claims

open StackVM

/-- Wrap-around is the identity on values already inside the `i64` range. -/
theorem wrapI64_eq_self {z : Int} (h1 : -2 ^ 63 ≤ z) (h2 : z < 2 ^ 63) :
    wrapI64 z = z := by
  unfold wrapI64
  rw [Int.emod_eq_of_lt (by omega) (by omega)]
  omega

/-- C1: executing the stack-machine bytecode with constant pool
[Int 23, Int −19] and instructions [LoadConstant 0, LoadConstant 1, IntAdd,
Return] from instruction pointer 0 makes `VM::exec` return `Ok(Int 4)`. -/
theorem c1_arithmetic_stack_program :
    execF ⟨[.constant 0, .constant 1, .intAdd, .ret], [.int 23, .int (-19)]⟩ 10 0 []
      = some (.ok (.int 4)) := by decide

/-- C10: in `VM::exec`, every binary integer opcode uses the value popped
from the top of the stack as its left operand and the value beneath it as
its right operand.  With a stack that holds `y` on top of `x` (that is,
after pushing `x` and then `y`), IntSub pushes `y − x`, IntDiv pushes
`y / x` (truncating), IntMod pushes `y % x` (remainder with the sign of
`y`), and IntPow pushes `y` raised to `x` cast to `u32`.  The range
hypotheses keep the wrap-around and divide-overflow checks inactive. -/
theorem c10_binary_int_operand_order (bc : Bytecode) (f ip : Nat) (x y : Int)
    (rest : List Node) :
    (bc.instructions.get? ip = some .intSub → -2 ^ 63 ≤ y - x → y - x < 2 ^ 63 →
      execF bc (f + 1) ip (.int y :: .int x :: rest)
        = execF bc f (ip + 1) (.int (y - x) :: rest)) ∧
    (bc.instructions.get? ip = some .intDiv → x ≠ 0 → ¬(y = -2 ^ 63 ∧ x = -1) →
      execF bc (f + 1) ip (.int y :: .int x :: rest)
        = execF bc f (ip + 1) (.int (y.tdiv x) :: rest)) ∧
    (bc.instructions.get? ip = some .intMod → x ≠ 0 → ¬(y = -2 ^ 63 ∧ x = -1) →
      execF bc (f + 1) ip (.int y :: .int x :: rest)
        = execF bc f (ip + 1) (.int (y.tmod x) :: rest)) ∧
    (bc.instructions.get? ip = some .intPow →
      -2 ^ 63 ≤ y ^ (x % 2 ^ 32).toNat → y ^ (x % 2 ^ 32).toNat < 2 ^ 63 →
      execF bc (f + 1) ip (.int y :: .int x :: rest)
        = execF bc f (ip + 1) (.int (y ^ (x % 2 ^ 32).toNat) :: rest)) := by
  refine ⟨fun h h1 h2 => ?_, fun h h1 h2 => ?_, fun h h1 h2 => ?_, fun h h1 h2 => ?_⟩
  · simp only [execF, h]
    rw [wrapI64_eq_self h1 h2]
  · simp only [execF, h]
    rw [if_neg (by tauto)]
  · simp only [execF, h]
    rw [if_neg (by tauto)]
  · simp only [execF, h]
    rw [wrapI64_eq_self h1 h2]

/-- Witness for C10 at concrete inputs: with 2 pushed and then 7 pushed,
IntSub yields 5, IntDiv yields 3, IntMod yields 1, and IntPow yields 49. -/
theorem c10_binary_int_operand_order_witness :
    execF ⟨[.intSub], []⟩ 2 0 [.int 7, .int 2]
      = execF ⟨[.intSub], []⟩ 1 1 [.int (7 - 2)] ∧
    execF ⟨[.intDiv], []⟩ 2 0 [.int 7, .int 2]
      = execF ⟨[.intDiv], []⟩ 1 1 [.int (Int.tdiv 7 2)] ∧
    execF ⟨[.intMod], []⟩ 2 0 [.int 7, .int 2]
      = execF ⟨[.intMod], []⟩ 1 1 [.int (Int.tmod 7 2)] ∧
    execF ⟨[.intPow], []⟩ 2 0 [.int 7, .int 2]
      = execF ⟨[.intPow], []⟩ 1 1 [.int ((7 : Int) ^ ((2 : Int) % 2 ^ 32).toNat)] :=
  ⟨(c10_binary_int_operand_order ⟨[.intSub], []⟩ 1 0 2 7 []).1 rfl (by decide) (by decide),
   (c10_binary_int_operand_order ⟨[.intDiv], []⟩ 1 0 2 7 []).2.1 rfl (by decide) (by decide),
   (c10_binary_int_operand_order ⟨[.intMod], []⟩ 1 0 2 7 []).2.2.1 rfl (by decide) (by decide),
   (c10_binary_int_operand_order ⟨[.intPow], []⟩ 1 0 2 7 []).2.2.2 rfl (by decide) (by decide)⟩

open ByteReader in
/-- C8 counterexample: a well-formed header declaring one constant followed
by no further bytes makes `Bytecode::from_bytes` panic with an
out-of-bounds index on the missing tag byte (`crash`), instead of returning
a bytecode-corruption error value as the claim states for every truncated
input. -/
theorem c8_missing_tag_byte_panics :
    fromBytes [0x56, 0x25, 0x14, 0xAF, 0, 0, 0, 1, 0, 0, 0, 0] = .crash := by decide

open ByteReader in
/-- C8 (amended): `Bytecode::from_bytes` returns a corruption error value
when the magic number is wrong or the buffer is too short to hold it;
`Constant::from_bytes` and `Op::from_bytes` (whose failures `from_bytes`
propagates unchanged) return a corruption error value on an unknown
constant tag, an unknown opcode tag, and on every payload truncated after a
present tag byte; but when the buffer ends where a tag byte is expected,
both parsers panic through an out-of-bounds index instead of returning an
error. -/
theorem c8_corruption_errors :
    (∀ bytes m, readU32 bytes 0 = .ok m → m ≠ MAGIC → fromBytes bytes = .err) ∧
    (∀ bytes, readU32 bytes 0 = .err → fromBytes bytes = .err) ∧
    (∀ bytes i t, bytes.get? i = some t → 0x0B ≤ t → opFromBytes bytes i = .err) ∧
    (∀ bytes i t, bytes.get? i = some t → t = 0 ∨ 5 ≤ t → constFromBytes bytes i = .err) ∧
    (∀ bytes i, bytes.get? i = some 0x01 → bytes.length ≤ i + 8 →
      constFromBytes bytes i = .err) ∧
    (∀ bytes i, bytes.get? i = some 0x02 → bytes.length ≤ i + 8 →
      constFromBytes bytes i = .err) ∧
    (∀ bytes i, bytes.get? i = some 0x04 → bytes.length ≤ i + 1 →
      constFromBytes bytes i = .err) ∧
    (∀ bytes i, bytes.get? i = some 0x03 → bytes.length ≤ i + 4 →
      constFromBytes bytes i = .err) ∧
    (∀ bytes i L, bytes.get? i = some 0x03 → readU32 bytes (i + 1) = .ok L →
      bytes.length ≤ i + 4 + L → constFromBytes bytes i = .err) ∧
    (∀ bytes i, bytes.get? i = some 0x01 → bytes.length ≤ i + 4 →
      opFromBytes bytes i = .err) ∧
    (∀ bytes i, bytes.get? i = some 0x09 → bytes.length ≤ i + 4 →
      opFromBytes bytes i = .err) ∧
    (∀ bytes i, bytes.get? i = some 0x0A → bytes.length ≤ i + 4 →
      opFromBytes bytes i = .err) ∧
    (∀ bytes i, bytes.length ≤ i →
      constFromBytes bytes i = .crash ∧ opFromBytes bytes i = .crash) := by
  refine ⟨?_, ?_, ?_, ?_, ?_, ?_, ?_, ?_, ?_, ?_, ?_, ?_, ?_⟩
  · intro bytes m h1 h2
    simp [fromBytes, readHeader, h1, h2]
  · intro bytes h1
    simp [fromBytes, readHeader, h1]
  · intro bytes i t h1 h2
    simp only [opFromBytes, h1]
    have hne : ∀ k : Nat, k < 0x0B → ¬(t = k) := by
      intro k hk he
      omega
    rw [if_neg (hne 0 (by norm_num)), if_neg (hne 1 (by norm_num)),
      if_neg (hne 2 (by norm_num)), if_neg (hne 3 (by norm_num)),
      if_neg (hne 4 (by norm_num)), if_neg (hne 5 (by norm_num)),
      if_neg (hne 6 (by norm_num)), if_neg (hne 7 (by norm_num)),
      if_neg (hne 8 (by norm_num)), if_neg (hne 9 (by norm_num)),
      if_neg (hne 10 (by norm_num))]
  · intro bytes i t h1 h2
    simp only [constFromBytes, h1]
    have hne : ∀ k : Nat, 0 < k → k < 5 → ¬(t = k) := by
      intro k hk1 hk2 he
      omega
    rw [if_neg (hne 1 (by norm_num) (by norm_num)), if_neg (hne 2 (by norm_num) (by norm_num)),
      if_neg (hne 3 (by norm_num) (by norm_num)), if_neg (hne 4 (by norm_num) (by norm_num))]
  · intro bytes i h1 h2
    rw [List.get?_eq_getElem?] at h1
    have h3 : bytes.length ≤ i + 1 + 7 := by omega
    simp [constFromBytes, h1, readI64, h3]
  · intro bytes i h1 h2
    rw [List.get?_eq_getElem?] at h1
    have h3 : bytes.length ≤ i + 1 + 7 := by omega
    simp [constFromBytes, h1, readF64, h3]
  · intro bytes i h1 h2
    rw [List.get?_eq_getElem?] at h1
    have h3 : bytes.get? (i + 1) = none := List.get?_eq_none.mpr (by omega)
    rw [List.get?_eq_getElem?] at h3
    simp [constFromBytes, h1, readBool, h3]
  · intro bytes i h1 h2
    rw [List.get?_eq_getElem?] at h1
    have h3 : bytes.length ≤ i + 1 + 3 := by omega
    simp [constFromBytes, h1, readStr, readU32, h3]
  · intro bytes i L h1 h2 h3
    rw [List.get?_eq_getElem?] at h1
    have h4 : bytes.length ≤ i + 1 + 3 + L := by omega
    simp [constFromBytes, h1, readStr, h2, h4]
  · intro bytes i h1 h2
    rw [List.get?_eq_getElem?] at h1
    have h3 : bytes.length ≤ i + 1 + 3 := by omega
    simp [opFromBytes, h1, readU32, h3]
  · intro bytes i h1 h2
    rw [List.get?_eq_getElem?] at h1
    have h3 : bytes.length ≤ i + 1 + 3 := by omega
    simp [opFromBytes, h1, readU32, h3]
  · intro bytes i h1 h2
    rw [List.get?_eq_getElem?] at h1
    have h3 : bytes.length ≤ i + 1 + 3 := by omega
    simp [opFromBytes, h1, readU32, h3]
  · intro bytes i h1
    constructor
    · simp only [constFromBytes, List.get?_eq_none.mpr h1]
    · simp only [opFromBytes, List.get?_eq_none.mpr h1]

open ByteReader in
/-- Witness for C8 (amended), instantiating every conjunct at a concrete
byte sequence. -/
theorem c8_corruption_errors_witness :
    fromBytes [0, 0, 0, 0] = .err ∧
    fromBytes [] = .err ∧
    opFromBytes [0x0B] 0 = .err ∧
    constFromBytes [0x00] 0 = .err ∧
    constFromBytes [0x01] 0 = .err ∧
    constFromBytes [0x02] 0 = .err ∧
    constFromBytes [0x04] 0 = .err ∧
    constFromBytes [0x03] 0 = .err ∧
    constFromBytes [0x03, 0, 0, 0, 5] 0 = .err ∧
    opFromBytes [0x01] 0 = .err ∧
    opFromBytes [0x09] 0 = .err ∧
    opFromBytes [0x0A] 0 = .err ∧
    constFromBytes [] 0 = .crash ∧ opFromBytes [] 0 = .crash :=
  ⟨c8_corruption_errors.1 [0, 0, 0, 0] 0 rfl (by decide),
   c8_corruption_errors.2.1 [] rfl,
   c8_corruption_errors.2.2.1 [0x0B] 0 0x0B rfl (by decide),
   c8_corruption_errors.2.2.2.1 [0x00] 0 0x00 rfl (by decide),
   c8_corruption_errors.2.2.2.2.1 [0x01] 0 rfl (by decide),
   c8_corruption_errors.2.2.2.2.2.1 [0x02] 0 rfl (by decide),
   c8_corruption_errors.2.2.2.2.2.2.1 [0x04] 0 rfl (by decide),
   c8_corruption_errors.2.2.2.2.2.2.2.1 [0x03] 0 rfl (by decide),
   c8_corruption_errors.2.2.2.2.2.2.2.2.1 [0x03, 0, 0, 0, 5] 0 5 rfl rfl (by decide),
   c8_corruption_errors.2.2.2.2.2.2.2.2.2.1 [0x01] 0 rfl (by decide),
   c8_corruption_errors.2.2.2.2.2.2.2.2.2.2.1 [0x09] 0 rfl (by decide),
   c8_corruption_errors.2.2.2.2.2.2.2.2.2.2.2.1 [0x0A] 0 rfl (by decide),
   c8_corruption_errors.2.2.2.2.2.2.2.2.2.2.2.2 [] 0 (by decide)⟩

open TypeNames in
/-- C6: the seven primitive names are mapped literally and a name matching
no pattern of the suffix grammar is left unresolved, but the claim's list
case fails: because the code recurses on `caps[0]` — the whole regex match —
instead of the parenthesised group, `IRDataType::from("Int[]")` calls
itself on `"Int[]"` again and never terminates (for every recursion bound
the embedded function returns `none`), rather than producing `List(Int)`. -/
theorem c6_type_from_name :
    (∀ fuel, fromNameF fuel "Int[]" = none) ∧
    fromNameF 1 "Int" = some .int ∧
    fromNameF 1 "Float" = some .float ∧
    fromNameF 1 "String" = some .string ∧
    fromNameF 1 "Char" = some .char ∧
    fromNameF 1 "Bool" = some .bool ∧
    fromNameF 1 "Error" = some .error ∧
    fromNameF 1 "Null" = some .null ∧
    fromNameF 1 "Foo" = some (.unresolved "Foo") := by
  refine ⟨?_, rfl, rfl, rfl, rfl, rfl, rfl, rfl, rfl⟩
  intro fuel
  induction fuel with
  | zero => rfl
  | succ f ih =>
    have h : fromNameF (f + 1) "Int[]" = (fromNameF f "Int[]").map IRDataType.list := rfl
    rw [h, ih]
    rfl

/-- A function whose assignments form the circular pair `a = b; b = a`,
which cannot be topologically ordered. -/
def cyclicFunction : Compiler.FunctionNode :=
  .mk ⟨0, 0⟩ "F" false false ⟨⟨0, 0⟩, []⟩ ⟨⟨0, 0⟩, []⟩ [] []
    [⟨⟨1, 1⟩, some ⟨⟨1, 1⟩, "a"⟩, .var ⟨⟨1, 5⟩, "b"⟩⟩,
     ⟨⟨2, 1⟩, some ⟨⟨2, 1⟩, "b"⟩, .var ⟨⟨2, 5⟩, "a"⟩⟩]

/-- A context containing the circular function inside one module. -/
def cyclicContext : Compiler.ContextNode :=
  ⟨[.mk ⟨0, 0⟩ "M" false [] [cyclicFunction] []]⟩

/-- C7: compiling a function whose assignments are circularly dependent
does not fail — `verify_no_circular_deps` is a `TODO` stub returning
`Ok(())` for every input (and `IRError` has no circular-dependency variant
at all), so `compile_context` succeeds on the circular pair `a = b; b = a`
instead of raising the fatal circular-dependency error the claim
requires. -/
theorem c7_circular_deps_not_rejected :
    (∀ asgs, Compiler.verifyNoCircularDeps asgs = .ok ()) ∧
    Compiler.compileContext 2 [] cyclicContext
      = .ok ⟨[], [⟨["M", "F"], 2, [], .null, []⟩]⟩ :=
  ⟨fun _ => rfl, rfl⟩

open RTBytecode in
mutual

/-- The distinctness comparator described by the claim (spec section 3):
structural equality on values with `Float` compared by bit pattern, so two
NaN values with the same bit pattern are equal. -/
def specValueEq : Data → Data → Bool
  | .null, .null => true
  | .int a, .int b => a == b
  | .float a, .float b => a == b
  | .string a, .string b => a == b
  | .char a, .char b => a == b
  | .bool a, .bool b => a == b
  | .struct n1 f1, .struct n2 f2 => n1 == n2 && specValueListEq f1 f2
  | .list a, .list b => specValueListEq a b
  | .array a, .array b => specValueListEq a b
  | .error a, .error b => a == b
  | .option a, .option b => specValueEq a b
  | .result a, .result b => specValueEq a b
  | .tuple a, .tuple b => specValueListEq a b
  | .dictionary k1 v1, .dictionary k2 v2 => specValueListEq k1 k2 && specValueListEq v1 v2
  | _, _ => false

/-- Elementwise bit-pattern structural equality on value lists. -/
def specValueListEq : List Data → List Data → Bool
  | [], [] => true
  | x :: xs, y :: ys => specValueEq x y && specValueListEq xs ys
  | _, _ => false

end

/-- Deduplication of a value list under the claim's bit-pattern structural
equality, keeping first occurrences. -/
def specDedup (l : List RTBytecode.Data) : List RTBytecode.Data :=
  l.foldl (fun acc c => if acc.any (fun e => specValueEq e c) then acc else acc ++ [c]) []

/-- The number of distinct constant values appearing in the IR's
constant-producing nodes, under the claim's bit-pattern equality. -/
def specDistinctCount (ctx : Compiler.IRContext) : Nat :=
  (specDedup (RTBytecode.irConstants ctx)).length

/-- The bit pattern of the canonical quiet `f64` NaN. -/
def nanBits : Nat := 0x7FF8000000000000

/-- An IR context with one function producing the same NaN float constant
twice. -/
def nanContext : Compiler.IRContext :=
  ⟨[], [⟨["F"], 0, [], .float,
    [⟨.floatConstant nanBits, [], .float⟩, ⟨.floatConstant nanBits, [], .float⟩]⟩]⟩

/-- C5 counterexample: assembling the context whose only constants are two
NaN floats with the same bit pattern yields a pool of 2 entries, while the
claim's distinct-value count (bit-pattern equality, NaNs identified) is 1 —
`add_const` compares with the derived `PartialEq` of `Data`, under which
`f64` NaN is unequal to itself, so the two NaN constants are never
deduplicated. -/
theorem c5_nan_constants_not_deduplicated :
    (RTBytecode.bytecodeFromIR nanContext []).map (fun bc => bc.constants.length) = some 2 ∧
    specDistinctCount nanContext = 1 := ⟨rfl, rfl⟩

/-- A found index yields a witness satisfying the predicate. -/
theorem exists_of_findIdx?_some {α : Type} {p : α → Bool} {l : List α} {i : Nat}
    (h : l.findIdx? p = some i) : ∃ x ∈ l, p x = true := by
  by_contra hc
  push_neg at hc
  have hn : l.findIdx? p = none := by
    rw [List.findIdx?_eq_none_iff]
    intro x hx
    simpa using hc x hx
  rw [hn] at h
  cases h

section C5Amended

open RTBytecode

/-- The equality-against-`c` relation used by the pool invariant. -/
theorem addConst_spec (bc : VertexBytecode) (c : Data) :
    bc.constants <+: (addConst bc c).1.constants ∧
    (∀ e ∈ (addConst bc c).1.constants, e ∈ bc.constants ∨ e = c) ∧
    (c ∈ (addConst bc c).1.constants ∨
      ∃ e ∈ (addConst bc c).1.constants, dataBeq e c = true) ∧
    (bc.constants.Pairwise (fun a b => dataBeq a b = false) →
      (addConst bc c).1.constants.Pairwise (fun a b => dataBeq a b = false)) := by
  unfold addConst
  match h : bc.constants.findIdx? (fun e => dataBeq e c) with
  | some i =>
    refine ⟨List.prefix_refl _, fun e he => Or.inl he, ?_, fun hP => hP⟩
    obtain ⟨e, he, hpe⟩ := exists_of_findIdx?_some h
    exact Or.inr ⟨e, he, hpe⟩
  | none =>
    have hall : ∀ x ∈ bc.constants, dataBeq x c = false := by
      intro x hx
      have := List.findIdx?_eq_none_iff.mp h x hx
      simpa using this
    refine ⟨⟨[c], rfl⟩, ?_, ?_, ?_⟩
    · intro e he
      rcases List.mem_append.mp he with he | he
      · exact Or.inl he
      · exact Or.inr (List.mem_singleton.mp he)
    · exact Or.inl (List.mem_append_right _ (List.mem_singleton_self c))
    · intro hP
      refine List.pairwise_append.mpr ⟨hP, List.pairwise_singleton _ _, ?_⟩
      intro a ha b hb
      rw [List.mem_singleton.mp hb]
      exact hall a ha

/-- `add_ext_func` never touches the constant pool. -/
theorem addExtFunc_constants {bc bc' : VertexBytecode} {reg : List Compiler.FuncMeta}
    {name : String} {fc : FunctionCall} (h : addExtFunc bc reg name = some (bc', fc)) :
    bc'.constants = bc.constants := by
  unfold addExtFunc at h
  match h1 : bc.external_functions.findIdx? (fun f => f == name) with
  | some i => rw [h1] at h; simp at h; rw [← h.1]
  | none =>
    rw [h1] at h
    match h2 : Compiler.getFunction reg name with
    | some meta => rw [h2] at h; simp at h; rw [← h.1]
    | none => rw [h2] at h; simp at h

/-- The constant-call case of the assembler dispatch, phrased for a generic
constant value. -/
theorem addConst_case_spec {bc bc' : VertexBytecode} {fc : FunctionCall} {c0 : Data}
    (h : addConst bc c0 = (bc', fc)) :
    bc.constants <+: bc'.constants ∧
    (∀ e ∈ bc'.constants, e ∈ bc.constants ∨ some c0 = some e) ∧
    (∀ c, some c0 = some c →
      c ∈ bc'.constants ∨ ∃ e ∈ bc'.constants, dataBeq e c = true) ∧
    (bc.constants.Pairwise (fun a b => dataBeq a b = false) →
      bc'.constants.Pairwise (fun a b => dataBeq a b = false)) := by
  have h1 : bc' = (addConst bc c0).1 := by rw [h]
  subst h1
  obtain ⟨p, m, cv, w⟩ := addConst_spec bc c0
  refine ⟨p, fun e he => (m e he).imp_right (fun hh => by rw [hh]), fun c hcc => ?_, w⟩
  obtain rfl : c0 = c := Option.some.inj hcc
  exact cv

/-- Per-call pool facts of the assembler dispatch. -/
theorem assembleCall_spec {bc bc' : VertexBytecode} {reg : List Compiler.FuncMeta}
    {call : Compiler.IRFuncCall} {fc : FunctionCall}
    (h : assembleCall bc reg call = some (bc', fc)) :
    bc.constants <+: bc'.constants ∧
    (∀ e ∈ bc'.constants, e ∈ bc.constants ∨ constDataOf call = some e) ∧
    (∀ c, constDataOf call = some c →
      c ∈ bc'.constants ∨ ∃ e ∈ bc'.constants, dataBeq e c = true) ∧
    (bc.constants.Pairwise (fun a b => dataBeq a b = false) →
      bc'.constants.Pairwise (fun a b => dataBeq a b = false)) := by
  cases call with
  | external f =>
    simp only [assembleCall] at h
    have hcst := addExtFunc_constants h
    rw [hcst]
    refine ⟨List.prefix_refl _, fun e he => Or.inl he, fun c hc2 => ?_, fun hP => hP⟩
    simp [constDataOf] at hc2
  | internal f =>
    simp only [assembleCall, Option.some.injEq, Prod.mk.injEq] at h
    rw [← h.1]
    refine ⟨List.prefix_refl _, fun e he => Or.inl he, fun c hc2 => ?_, fun hP => hP⟩
    simp [constDataOf] at hc2
  | unresolved f => simp [assembleCall] at h
  | intConstant v =>
    simp only [assembleCall, Option.some.injEq] at h
    exact addConst_case_spec h
  | floatConstant v =>
    simp only [assembleCall, Option.some.injEq] at h
    exact addConst_case_spec h
  | stringConstant v =>
    simp only [assembleCall, Option.some.injEq] at h
    exact addConst_case_spec h
  | charConstant v =>
    simp only [assembleCall, Option.some.injEq] at h
    exact addConst_case_spec h
  | boolConstant v =>
    simp only [assembleCall, Option.some.injEq] at h
    exact addConst_case_spec h

/-- Pool facts of the statement loop. -/
theorem assembleStatements_spec {reg : List Compiler.FuncMeta} :
    ∀ (stmts : List Compiler.IRNode) (bc : VertexBytecode) (ops : List Operation)
      (bc2 : VertexBytecode) (ops2 : List Operation),
      assembleStatements reg stmts bc ops = some (bc2, ops2) →
      bc.constants <+: bc2.constants ∧
      (∀ e ∈ bc2.constants, e ∈ bc.constants ∨
        ∃ n ∈ stmts, constDataOf n.function = some e) ∧
      (∀ n ∈ stmts, ∀ c, constDataOf n.function = some c →
        c ∈ bc2.constants ∨ ∃ e ∈ bc2.constants, dataBeq e c = true) ∧
      (bc.constants.Pairwise (fun a b => dataBeq a b = false) →
        bc2.constants.Pairwise (fun a b => dataBeq a b = false)) := by
  intro stmts
  induction stmts with
  | nil =>
    intro bc ops bc2 ops2 h
    simp only [assembleStatements, Option.some.injEq, Prod.mk.injEq] at h
    rw [← h.1]
    refine ⟨List.prefix_refl _, fun e he => Or.inl he, fun n hn => ?_, fun hP => hP⟩
    cases hn
  | cons st rest ih =>
    intro bc ops bc2 ops2 h
    simp only [assembleStatements] at h
    match hc : assembleCall bc reg st.function with
    | none => rw [hc] at h; cases h
    | some (bc1, fc) =>
      rw [hc] at h
      obtain ⟨p1, m1, c1, w1⟩ := assembleCall_spec hc
      obtain ⟨p2, m2, c2, w2⟩ := ih bc1 _ bc2 ops2 h
      refine ⟨p1.trans p2, ?_, ?_, fun hP => w2 (w1 hP)⟩
      · intro e he
        rcases m2 e he with he1 | ⟨n, hn, hne⟩
        · rcases m1 e he1 with he0 | he0
          · exact Or.inl he0
          · exact Or.inr ⟨st, List.mem_cons_self st rest, he0⟩
        · exact Or.inr ⟨n, List.mem_cons_of_mem st hn, hne⟩
      · intro n hn c hnc
        rcases List.mem_cons.mp hn with hn1 | hn1
        · subst hn1
          rcases c1 c hnc with hcc | ⟨e, he, hee⟩
          · exact Or.inl (p2.subset hcc)
          · exact Or.inr ⟨e, p2.subset he, hee⟩
        · exact c2 n hn1 c hnc

/-- Pool facts of the function loop. -/
theorem assembleFunctions_spec {reg : List Compiler.FuncMeta} :
    ∀ (fns : List Compiler.IRFunction) (bc bc2 : VertexBytecode),
      assembleFunctions reg fns bc = some bc2 →
      bc.constants <+: bc2.constants ∧
      (∀ e ∈ bc2.constants, e ∈ bc.constants ∨
        ∃ f ∈ fns, ∃ n ∈ f.statements, constDataOf n.function = some e) ∧
      (∀ f ∈ fns, ∀ n ∈ f.statements, ∀ c, constDataOf n.function = some c →
        c ∈ bc2.constants ∨ ∃ e ∈ bc2.constants, dataBeq e c = true) ∧
      (bc.constants.Pairwise (fun a b => dataBeq a b = false) →
        bc2.constants.Pairwise (fun a b => dataBeq a b = false)) := by
  intro fns
  induction fns with
  | nil =>
    intro bc bc2 h
    simp only [assembleFunctions, Option.some.injEq] at h
    rw [← h]
    refine ⟨List.prefix_refl _, fun e he => Or.inl he, fun f hf => ?_, fun hP => hP⟩
    cases hf
  | cons f rest ih =>
    intro bc bc2 h
    simp only [assembleFunctions] at h
    match hs : assembleStatements reg f.statements bc [] with
    | none => rw [hs] at h; cases h
    | some (bc1, ops) =>
      rw [hs] at h
      obtain ⟨p1, m1, c1, w1⟩ := assembleStatements_spec f.statements bc [] bc1 ops hs
      obtain ⟨p2, m2, c2, w2⟩ := ih _ bc2 h
      refine ⟨p1.trans p2, ?_, ?_, fun hP => w2 (w1 hP)⟩
      · intro e he
        rcases m2 e he with he1 | ⟨g, hg, hge⟩
        · rcases m1 e he1 with he0 | ⟨n, hn, hne⟩
          · exact Or.inl he0
          · exact Or.inr ⟨f, List.mem_cons_self f rest, n, hn, hne⟩
        · exact Or.inr ⟨g, List.mem_cons_of_mem f hg, hge⟩
      · intro g hg n hn c hnc
        rcases List.mem_cons.mp hg with hg1 | hg1
        · subst hg1
          rcases c1 n hn c hnc with hcc | ⟨e, he, hee⟩
          · exact Or.inl (p2.subset hcc)
          · exact Or.inr ⟨e, p2.subset he, hee⟩
        · exact c2 g hg1 n hn c hnc

/-- Membership in `irConstants` unfolded to a per-function statement
witness. -/
theorem mem_irConstants_iff {ctx : Compiler.IRContext} {c : Data} :
    c ∈ irConstants ctx ↔
      ∃ f ∈ ctx.functions, ∃ n ∈ f.statements, constDataOf n.function = some c := by
  unfold irConstants
  constructor
  · intro h
    obtain ⟨l, hl, hcl⟩ := List.mem_flatten.mp h
    obtain ⟨f, hf, rfl⟩ := List.mem_map.mp hl
    obtain ⟨n, hn, hnc⟩ := List.mem_filterMap.mp hcl
    exact ⟨f, hf, n, hn, hnc⟩
  · rintro ⟨f, hf, n, hn, hnc⟩
    refine List.mem_flatten.mpr ⟨_, List.mem_map.mpr ⟨f, hf, rfl⟩, ?_⟩
    exact List.mem_filterMap.mpr ⟨n, hn, hnc⟩

end C5Amended

open RTBytecode in
/-- C5 (amended): assembling bytecode from an IR context interns constants
by the derived `PartialEq` of `Data` — structural equality with `f64`
compared by IEEE-754 semantics, under which a NaN equals nothing (so equal
bit-pattern NaNs occupy separate pool entries) while `0.0` equals `-0.0`.
The pool contains exactly the distinct constant values in that sense: its
entries are pairwise unequal, every IR constant either sits in the pool or
is `PartialEq`-equal to a pool entry, and every pool entry is one of the
IR's constant values. -/
theorem c5_constant_deduplication_ieee (ctx : Compiler.IRContext)
    (reg : List Compiler.FuncMeta) (bc : VertexBytecode)
    (h : bytecodeFromIR ctx reg = some bc) :
    bc.constants.Pairwise (fun a b => dataBeq a b = false) ∧
    (∀ c ∈ irConstants ctx, c ∈ bc.constants ∨
      ∃ e ∈ bc.constants, dataBeq e c = true) ∧
    (∀ e ∈ bc.constants, e ∈ irConstants ctx) := by
  obtain ⟨p1, m1, c1, w1⟩ := assembleFunctions_spec ctx.functions ⟨[], [], []⟩ bc h
  refine ⟨w1 (List.Pairwise.nil), ?_, ?_⟩
  · intro c hc
    obtain ⟨f, hf, n, hn, hnc⟩ := mem_irConstants_iff.mp hc
    exact c1 f hf n hn c hnc
  · intro e he
    rcases m1 e he with he0 | ⟨f, hf, n, hn, hne⟩
    · cases he0
    · exact mem_irConstants_iff.mpr ⟨f, hf, n, hn, hne⟩

/-- An IR context producing the int constants 1, 1, 2. -/
def intContext : Compiler.IRContext :=
  ⟨[], [⟨["F"], 0, [], .int,
    [⟨.intConstant 1, [], .int⟩, ⟨.intConstant 1, [], .int⟩, ⟨.intConstant 2, [], .int⟩]⟩]⟩

open RTBytecode in
/-- Witness for C5 (amended) at a concrete context: constants 1, 1, 2
assemble into the two-entry pool [1, 2] satisfying all three amended
conclusions. -/
theorem c5_constant_deduplication_ieee_witness :
    bytecodeFromIR intContext [] =
      some ⟨[], [[⟨.constant 0, []⟩, ⟨.constant 0, []⟩, ⟨.constant 1, []⟩]],
        [.int 1, .int 2]⟩ ∧
    ([Data.int 1, Data.int 2].Pairwise (fun a b => dataBeq a b = false) ∧
      (∀ c ∈ irConstants intContext, c ∈ [Data.int 1, Data.int 2] ∨
        ∃ e ∈ [Data.int 1, Data.int 2], dataBeq e c = true) ∧
      (∀ e ∈ [Data.int 1, Data.int 2], e ∈ irConstants intContext)) :=
  ⟨rfl, c5_constant_deduplication_ieee intContext [] _ rfl⟩

open Sched SchedLemmas in
/-- C2: a job submitted with no remaining dependencies (after dropping the
already-finished ones) is pushed to the FIFO ready queue immediately; a job
with remaining dependencies is recorded as sleeping and unsent, and over
any subsequent event sequence it appears in the queue log only when every
remaining dependency has been finished (is done); in particular, submitting
`a` (no deps), `b` (depending on `a`), `c` (no deps) queues `[a, c]`, and
after `finish_job(a)` the queue log is `[a, c, b]`. -/
theorem c2_submit_dependencies :
    (∀ (s : SchedState) (deps : List Nat), filterDeps s deps = [] →
      newJob s deps =
        ({ s with cur_job_id := s.cur_job_id + 1, sent := s.sent ++ [s.cur_job_id] },
          s.cur_job_id)) ∧
    (∀ (s : SchedState) (deps : List Nat), filterDeps s deps ≠ [] →
      newJob s deps =
        ({ s with
            cur_job_id := s.cur_job_id + 1,
            sleeping := s.sleeping ++ [(s.cur_job_id, filterDeps s deps)] },
          s.cur_job_id)) ∧
    (∀ (s : SchedState) (deps : List Nat) (t : List SEvent) (s' : SchedState),
      IdsBound s → filterDeps s deps ≠ [] →
      runTrace (newJob s deps).1 t = .ok s' → (newJob s deps).2 ∈ s'.sent →
      ∀ d ∈ filterDeps s deps, isDone s' d = true) ∧
    (∃ sD sD' : SchedState,
      runTrace initState [.submit [], .submit [1], .submit []] = .ok sD ∧
      sD.sent = [1, 3] ∧
      runTrace initState [.submit [], .submit [1], .submit [], .finish 1] = .ok sD' ∧
      sD'.sent = [1, 3, 2]) := by
  refine ⟨fun s deps h => newJob_empty s deps h,
    fun s deps h => newJob_nonempty s deps h, ?_,
    ⟨⟨0, 4, [], [(2, [1])], [], [], [1, 3], []⟩,
      ⟨1, 4, [], [], [], [], [1, 3, 2], []⟩, rfl, rfl, rfl, rfl⟩⟩
  intro s deps t s' hb hne hrun hsent d hd
  rw [newJob_nonempty s deps hne] at hrun hsent
  have hb1 : IdsBound ({ s with
      cur_job_id := s.cur_job_id + 1,
      sleeping := s.sleeping ++ [(s.cur_job_id, filterDeps s deps)] } : SchedState) := by
    constructor
    · intro p hp
      rcases List.mem_append.mp hp with hp | hp
      · exact Nat.lt_trans (hb.1 p hp) (Nat.lt_succ_self _)
      · rw [List.mem_singleton.mp hp]
        exact Nat.lt_succ_self _
    · intro i hi
      exact Nat.lt_trans (hb.2 i hi) (Nat.lt_succ_self _)
  have hq : SleepInv s.cur_job_id (filterDeps s deps)
      ({ s with
          cur_job_id := s.cur_job_id + 1,
          sleeping := s.sleeping ++ [(s.cur_job_id, filterDeps s deps)] } : SchedState) := by
    refine Or.inl ⟨filterDeps s deps,
      List.mem_append_right _ (List.mem_singleton_self _), hne, ?_, ?_,
      fun d hd => Or.inl hd⟩
    · intro p hp hpj
      rcases List.mem_append.mp hp with hp | hp
      · exfalso
        have := hb.1 p hp
        omega
      · rw [List.mem_singleton.mp hp]
    · intro hmem
      exact Nat.lt_irrefl _ (hb.2 _ hmem)
  obtain ⟨_, _, hq'⟩ := trace_c2 t _ s' hrun hb1 (Nat.lt_succ_self _) hq
  rcases hq' with ⟨D', _, _, _, hnotsent, _⟩ | hall
  · exact absurd hsent hnotsent
  · exact hall d hd

open Sched SchedLemmas in
/-- Witness for C2: from the state after submitting job 1 with no
dependencies, submitting job 2 depending on job 1, then submitting job 3
and finishing job 1, job 2 reaches the queue log and its dependency job 1
is indeed done in the final state. -/
theorem c2_submit_dependencies_witness :
    isDone ⟨1, 4, [], [], [], [], [1, 3, 2], []⟩ 1 = true :=
  c2_submit_dependencies.2.2.1 ⟨0, 2, [], [], [], [], [1], []⟩ [1]
    [.submit [], .finish 1] ⟨1, 4, [], [], [], [], [1, 3, 2], []⟩
    ⟨by decide, by decide⟩ (by decide) (by decide) (by decide) 1 (by decide)

open Sched SchedLemmas in
/-- C3: `hibernate` on a job with remaining dependencies records it
hibernating and changes nothing else (in particular the job does not appear
finished); from a well-formed state in which `a` hibernates on a dependency
list containing `c`, over any legitimate event sequence, `a` is not done
until `c` is done (whenever `a` appears done, `c` is done); and when `c` is
the sole dependency, a successful `finish_job(c)` leaves `a` done (the
hibernation cascade finishes it). -/
theorem c3_hibernation :
    (∀ (s : SchedState) (a : Nat) (deps : List Nat),
      s.hibernating.any (fun p => p.1 == a) = false →
      s.sleeping.any (fun p => p.1 == a) = false →
      filterDeps s deps ≠ [] →
      hibernate s a deps =
        .ok { s with hibernating := s.hibernating ++ [(a, filterDeps s deps)] }) ∧
    (∀ (s s' : SchedState) (t : List SEvent) (a c : Nat) (D : List Nat),
      GoodInv s → (a, D) ∈ s.hibernating → c ∈ D →
      legitFrom s t = true → runTrace s t = .ok s' →
      isDone s' a = true → isDone s' c = true) ∧
    (∀ (s s' : SchedState) (a c : Nat), (a, [c]) ∈ s.hibernating →
      finishJob s c = .ok s' → isDone s' a = true) := by
  refine ⟨?_, ?_, ?_⟩
  · intro s a deps h1 h2 h3
    have h4 : (filterDeps s deps).isEmpty = false := by
      cases hi : (filterDeps s deps).isEmpty
      · rfl
      · exact absurd (List.isEmpty_iff.mp hi) h3
    simp [hibernate, h1, h2, h4]
  · intro s s' t a c D hg hD hc hleg hrun hdone
    obtain ⟨hg', hp'⟩ := trace_c3 t s s' hrun hleg hg (Or.inl ⟨D, hD, hc⟩)
    rcases hp' with ⟨D', hD', _⟩ | hcd
    · exfalso
      have hnd := hg'.2.2.2 (a, D') hD'
      rw [hdone] at hnd
      simp at hnd
    · exact hcd
  · intro s s' a c hD hfin
    unfold finishJob at hfin
    rw [finishJobF_succ] at hfin
    by_cases hsleep : s.sleeping.any (fun j => j.1 == c) = true
    · rw [if_pos hsleep] at hfin
      exact absurd hfin (by simp)
    · rw [if_neg hsleep] at hfin
      cases hgo : finishListGo (fun t j => finishJobF s.hibernating.length t j)
          (finishPass s c).1 (finishPass s c).2 with
      | ok s3 =>
        rw [hgo] at hfin
        simp only [afterCascade] at hfin
        cases hfin
        have hmem : a ∈ (finishPass s c).2 := removeDep_collects c a s.hibernating hD
        obtain ⟨_, hdall⟩ := (finish_main _).2 _ _ _ hgo
        rw [isDone_notify]
        exact hdall a hmem
      | panicked =>
        rw [hgo] at hfin
        exact absurd hfin (by simp [afterCascade])
      | nofuel =>
        rw [hgo] at hfin
        exact absurd hfin (by simp [afterCascade])

open Sched SchedLemmas in
/-- Witness for C3: in the state where job 1 hibernates on just-submitted
job 2, finishing job 2 yields a state in which job 1 appears done, and the
not-done-until conclusion instantiated there shows job 2 is done as
well. -/
theorem c3_hibernation_witness :
    isDone ⟨2, 3, [], [], [], [], [1, 2], []⟩ 2 = true :=
  c3_hibernation.2.1 ⟨0, 3, [], [], [(1, [2])], [], [1, 2], []⟩
    ⟨2, 3, [], [], [], [], [1, 2], []⟩ [.finish 2] 1 2 [2]
    ⟨by decide, by decide, by decide, by decide⟩ (by decide) (by decide)
    (by decide) (by decide) (by decide)

/-- A nested function declaration with no parameters, returns, children or
statements, not exported. -/
def nestedFunction : Compiler.FunctionNode :=
  .mk ⟨0, 0⟩ "F" false false ⟨⟨0, 0⟩, []⟩ ⟨⟨0, 0⟩, []⟩ [] [] []

/-- A module declaration holding the nested function, not exported. -/
def nestedModule : Compiler.ModuleNode :=
  .mk ⟨0, 0⟩ "M" false [] [nestedFunction] []

/-- C9: in the IR builder, under the entry condition `acc ≤ depth` (which
holds at the root call and propagates), an element's accessibility is the
inherited `acc` when it is exported and the current depth (the incremented
`depth + 1`) otherwise, and every function or struct the element's subtree
records carries an accessibility at least the element's own — so the
accessibility of any nested element is at least that of its enclosing
element. -/
theorem c9_accessibility_monotonicity :
    ∀ (fuel : Nat) (reg : List Compiler.FuncMeta) (ctx : Compiler.IRContext)
      (path : List String) (depth acc : Nat), acc ≤ depth →
      (∀ (f : Compiler.FunctionNode) (ctx' : Compiler.IRContext),
        Compiler.loadFunction fuel reg ctx path f depth acc = .ok ctx' →
        ((∀ g ∈ ctx'.functions, g ∈ ctx.functions ∨
            (if f.exported then acc else depth + 1) ≤ g.accessability) ∧
          (∀ st ∈ ctx'.structs, st ∈ ctx.structs ∨
            (if f.exported then acc else depth + 1) ≤ st.accessability) ∧
          ∃ fn ∈ ctx'.functions, fn.ident_path = path ++ [f.name] ∧
            fn.accessability = (if f.exported then acc else depth + 1))) ∧
      (∀ (m : Compiler.ModuleNode) (ctx' : Compiler.IRContext),
        Compiler.loadModule fuel reg ctx path m depth acc = .ok ctx' →
        ((∀ g ∈ ctx'.functions, g ∈ ctx.functions ∨
            (if m.exported then acc else depth + 1) ≤ g.accessability) ∧
          (∀ st ∈ ctx'.structs, st ∈ ctx.structs ∨
            (if m.exported then acc else depth + 1) ≤ st.accessability))) := by
  intro fuel reg ctx path depth acc hacc
  obtain ⟨hf, hm⟩ := LoaderLemmas.load_acc fuel reg ctx path depth acc hacc
  constructor
  · intro f ctx' h
    obtain ⟨⟨ha1, ha2⟩, hself⟩ := hf f ctx' h
    exact ⟨ha1, ha2, hself⟩
  · intro m ctx' h
    obtain ⟨ha1, ha2⟩ := hm m ctx' h
    exact ⟨ha1, ha2⟩

/-- Witness for C9: loading the unexported module `M` (accessibility 1)
holding the unexported function `F` records `F` at accessibility 2 ≥ 1. -/
theorem c9_accessibility_monotonicity_witness :
    (⟨["M", "F"], 2, [], .null, []⟩ : Compiler.IRFunction) ∈
        (⟨[], []⟩ : Compiler.IRContext).functions ∨
      1 ≤ (⟨["M", "F"], 2, [], .null, []⟩ : Compiler.IRFunction).accessability :=
  ((c9_accessibility_monotonicity 2 [] ⟨[], []⟩ [] 0 0 (Nat.le_refl 0)).2
    nestedModule ⟨[], [⟨["M", "F"], 2, [], .null, []⟩]⟩ rfl).1
    ⟨["M", "F"], 2, [], .null, []⟩ (List.mem_singleton_self _)

open Sched SchedLemmas in
/-- C4: along every successful event sequence from a fresh scheduler, each
job id occurs at most once in the log of completion notifications fired
through the `wait_for` channels — `finish_job` signals a registered channel
once and discards it, including across hibernation cascades. -/
theorem c4_notification_fires_once :
    ∀ (t : List SEvent) (s' : SchedState), runTrace initState t = .ok s' →
      ∀ jid : Nat, s'.emitted.count jid ≤ 1 := by
  intro t s' h jid
  have hinit : EmitInv initState :=
    ⟨List.nodup_nil, List.nodup_nil, fun x hx => absurd hx (List.not_mem_nil x),
      fun x hx => absurd hx (List.not_mem_nil x)⟩
  obtain ⟨hnd, _, _, _⟩ := trace_c4 t initState s' h hinit
  exact List.nodup_iff_count_le_one.mp hnd jid

open Sched SchedLemmas in
/-- Witness for C4: submitting a job, registering a notification channel
for it, and finishing it emits its notification exactly once. -/
theorem c4_notification_fires_once_witness :
    (⟨1, 2, [], [], [], [], [1], [1]⟩ : SchedState).emitted.count 1 ≤ 1 :=
  c4_notification_fires_once [.submit [], .waitFor 1, .finish 1]
    ⟨1, 2, [], [], [], [], [1], [1]⟩ (by decide) 1

end Claims

end VertexLang
